import Mathlib

/-!
# PageRank power iteration (`src/pr_etudiants.c`)

A shallow embedding of the numeric core of the program: the vector and
sparse-matrix records, the input reader `sm_input`, the normaliser `m_to_h`,
the transition step `multiply`, the damped update `surfeur` and the iteration
driver of `main`.

Modelling conventions.

* `double` is modelled by `ℚ`: every statement is about exact arithmetic.
* `u_int` / `int` / `size_t` array extents and loop counters are natural
  numbers (extents are taken to fit the counter types of the loops, so no
  counter wraps).
* A C array is a `List`; a `NULL` array of an empty row is `[]`.
* Every array access is checked: an access outside the array makes the
  operation return `none` (undefined behaviour in C).  The division of
  `m_to_h` is guarded in the same way.
* `calloc` is assumed to return an array, also for zero cells (the program
  exits otherwise).
* The input file of `sm_input` is the list of the items that its `fscanf`
  calls convert, in order.
* The damping constant `ALPHA` (a `#define`) is a parameter of `surfeur`;
  the value compiled into the program is `ALPHA = 0`.
-/

namespace PageRank

/-! ## Data model -/

/-- Dense vector: `dim` and the entry array `e`. -/
structure VEC where
  dim : Nat
  e : List ℚ
deriving DecidableEq

/-- One row of a sparse matrix: `nnz`, the column array and the value array. -/
structure SROW where
  nnz : Nat
  col : List Nat
  val : List ℚ
deriving DecidableEq

/-- Sparse matrix: `m` rows, `n` columns and the row table. -/
structure SMAT where
  m : Nat
  n : Nat
  row : List SROW
deriving DecidableEq

/-- Damping constant compiled into the program (`#define ALPHA 0.0`). -/
def ALPHA : ℚ := 0

/-- Iteration count compiled into the program (`#define NBMULT 1000`). -/
def NBMULT : Nat := 1000

/-! ## Checked memory access and loops -/

/-- Checked array read `xs[i]`. -/
def rd {α : Type} (xs : List α) (i : Nat) : Option α := xs[i]?

/-- Checked array write `xs[i] = x`. -/
def wr {α : Type} (xs : List α) (i : Nat) (x : α) : Option (List α) :=
  if i < xs.length then some (xs.set i x) else none

/-- Guarded division `x / d` by an unsigned count: fails on `d = 0`. -/
def fdiv (x : ℚ) (d : Nat) : Option ℚ :=
  if d = 0 then none else some (x / (d : ℚ))

/-- The loop `for (i = 0; i < n; i++) body`, threading the state `s`:
iteration `k` runs on the state left by iterations `0 .. k-1`, and an
iteration that fails makes the whole loop fail. -/
def forLoop {σ : Type} (body : Nat → σ → Option σ) : Nat → σ → Option σ
  | 0, s => some s
  | k + 1, s => (forLoop body k s).bind (body k)

/-! ## Vectors -/

/-- Embedding of `v_get`: a vector of dimension `size`, zero-initialised by `calloc`. -/
def v_get (size : Nat) : VEC := ⟨size, List.replicate size 0⟩

/-- Checked read of the entry `v->e[i]`. -/
def VEC.rd (v : VEC) (i : Nat) : Option ℚ := PageRank.rd v.e i

/-- Checked write `v->e[i] = x`. -/
def VEC.wr (v : VEC) (i : Nat) (x : ℚ) : Option VEC :=
  (PageRank.wr v.e i x).map (fun e => { v with e := e })

/-- Entry `i` of a vector (`0` outside the array), used in statements. -/
def VEC.get (v : VEC) (i : Nat) : ℚ := v.e.getD i 0

/-- Embedding of `createVec`: `v_get(m)` then `e[i] = 1.0/m` for every `i < m`
(`m` is the row count that `main` passes, a natural number). -/
def createVec (m : Nat) : Option VEC :=
  forLoop (fun i myVec => myVec.wr i (1 / (m : ℚ))) m (v_get m)

/-! ## Sparse matrices -/

/-- The empty row: `nnz = 0`, `col = NULL`, `val = NULL`. -/
def emptyRow : SROW := ⟨0, [], []⟩

/-- Embedding of `sm_get`: the row table of `m` cells comes zeroed from
`calloc` (`nnz = 0` and `NULL` arrays in every cell), then the loop stores
`nnz = 0; col = NULL; val = NULL` in every row `i < m`. -/
def sm_get (m n : Nat) : Option SMAT :=
  forLoop (fun i M =>
    (wr M.row i ⟨0, [], []⟩).map (fun rows => { M with row := rows }))
    m ⟨m, n, List.replicate m emptyRow⟩

/-- Inner loop of `m_to_h` on row `ri`: `val[j] = 1.0/nnz` for every `j < nnz`. -/
def m_to_h_row (ri : SROW) : Option SROW :=
  forLoop (fun j r =>
    (fdiv 1 r.nnz).bind (fun x =>
      (wr r.val j x).map (fun v => { r with val := v }))) ri.nnz ri

/-- Embedding of `m_to_h`: the inner loop applied to the rows `0 .. m-1` in place. -/
def m_to_h (M : SMAT) : Option SMAT :=
  forLoop (fun i M =>
    (rd M.row i).bind (fun ri =>
      (m_to_h_row ri).map (fun ri2 => { M with row := M.row.set i ri2 }))) M.m M

/-- Inner loop of `multiply` for source row `j`:
`newVec->e[col[k]] += val[k] * vec->e[j]` for every `k < nnz`. -/
def multiply_row (vec : VEC) (rj : SROW) (j : Nat) (newVec : VEC) : Option VEC :=
  forLoop (fun k nv =>
    (rd rj.col k).bind (fun c =>
      (rd rj.val k).bind (fun w =>
        (vec.rd j).bind (fun x =>
          (nv.rd c).bind (fun old => nv.wr c (old + w * x)))))) rj.nnz newVec

/-- Embedding of `multiply`: a fresh zero vector of dimension `vec->dim`,
then the scatter-add of every row `j < H->m` (the local `standard` of the
source is never read and is left out). -/
def multiply (vec : VEC) (H : SMAT) : Option VEC :=
  forLoop (fun j nv =>
    (rd H.row j).bind (fun rj => multiply_row vec rj j nv)) H.m (v_get vec.dim)

/-- First loop of `surfeur`: `rk_alphaise[i] = rk_old[i]*ALPHA`, and
`a[i] = 1.0` on the rows with `nnz == 0`.  The state is `(rk_alphaise, a)`. -/
def surfeur_scale (ALPHA : ℚ) (rk_old : VEC) (H : SMAT) : Option (VEC × VEC) :=
  forLoop (fun i st =>
    (rk_old.rd i).bind (fun x =>
      (st.1.wr i (x * ALPHA)).bind (fun ra =>
        (rd H.row i).bind (fun ri =>
          if ri.nnz = 0 then (st.2.wr i 1).map (fun a2 => (ra, a2))
          else some (ra, st.2))))) H.m (v_get H.m, v_get H.m)

/-- Second loop of `surfeur`: `indicator += a[i]*vec[i]*ALPHA`, from `0.0`. -/
def surfeur_acc (ALPHA : ℚ) (a vec : VEC) (m : Nat) : Option ℚ :=
  forLoop (fun i indicator =>
    (a.rd i).bind (fun ai =>
      (vec.rd i).bind (fun vi => some (indicator + ai * vi * ALPHA)))) m 0

/-- Third loop of `surfeur`:
`rk_new[i] = rk_alphaise[i] + (indicator + 1.0 - ALPHA)*standard`. -/
def surfeur_fill (ALPHA : ℚ) (rk_alphaise : VEC) (indicator standard : ℚ) (m : Nat) :
    Option VEC :=
  forLoop (fun i rk_new =>
    (rk_alphaise.rd i).bind (fun x =>
      rk_new.wr i (x + (indicator + 1 - ALPHA) * standard))) m (v_get m)

/-- The scalar `indicator` that `surfeur` holds after its second loop. -/
def surfeur_indicator (ALPHA : ℚ) (vec : VEC) (H : SMAT) : Option ℚ :=
  (multiply vec H).bind (fun rk_old =>
    (surfeur_scale ALPHA rk_old H).bind (fun st =>
      surfeur_acc ALPHA st.2 vec H.m))

/-- Embedding of `surfeur`. -/
def surfeur (ALPHA : ℚ) (vec : VEC) (H : SMAT) : Option VEC :=
  (multiply vec H).bind (fun rk_old =>
    (surfeur_scale ALPHA rk_old H).bind (fun st =>
      (surfeur_acc ALPHA st.2 vec H.m).bind (fun indicator =>
        surfeur_fill ALPHA st.1 indicator (1 / (H.m : ℚ)) H.m)))

/-- The iteration loop of `main`: `vec = surfeur(vec, SM)` repeated `K` times. -/
def iterate (ALPHA : ℚ) (SM : SMAT) : Nat → VEC → Option VEC
  | 0, vec => some vec
  | K + 1, vec => (iterate ALPHA SM K vec).bind (fun v => surfeur ALPHA v SM)

/-- The numeric part of `main` on a matrix already read: normalise, build the
uniform vector, iterate `K` times. -/
def pagerank (ALPHA : ℚ) (K : Nat) (SM : SMAT) : Option VEC :=
  (m_to_h SM).bind (fun H =>
    (createVec H.m).bind (fun vec => iterate ALPHA H K vec))

/-! ## The reader `sm_input` -/

/-- Items delivered by the successive `fscanf` calls of `sm_input`:
the header `SparseMatrix: m by n`, a row label `row r:`, an integer `%d`. -/
inductive Tok where
  | dims (m n : Nat)
  | rowHdr (r : Nat)
  | num (c : Int)
deriving DecidableEq

/-- Ways in which `sm_input` fails to return a matrix: a diagnosed read error
(`exit(-1)`), or an access outside an array. -/
inductive Fault where
  | readError
  | outOfBounds
deriving DecidableEq

/-- The loop `for (i = 0; i < n; i++) body` for operations that fail with a `Fault`. -/
def forLoopE {σ : Type} (body : Nat → σ → Except Fault σ) : Nat → σ → Except Fault σ
  | 0, s => .ok s
  | k + 1, s =>
    match forLoopE body k s with
    | .error f => .error f
    | .ok t => body k t

/-- State of the row loop of `sm_input`: the matrix under construction, the
temporary array `col` (of `n` cells) and the unread part of the file. -/
structure ReadState where
  M : SMAT
  col : List Nat
  fp : List Tok

/-- The `for( ; ; )` loop of `sm_input`: read integers until a negative one,
storing each non-negative `c` in `col[j]` and incrementing `j`.  Returns the
temporary array, the count `j` and the unread input. -/
def scanCols : List Tok → List Nat → Nat → Except Fault (List Nat × Nat × List Tok)
  | Tok.num c :: rest, col, j =>
    if c < 0 then .ok (col, j, rest)
    else
      match wr col j c.toNat with
      | none => .error Fault.outOfBounds
      | some col2 => scanCols rest col2 (j + 1)
  | _, _, _ => .error Fault.readError

/-- Population of a row from the temporary array: arrays of `j` cells,
`nnz = j`, then `ri->col[k] = col[k]; ri->val[k] = 1.0` for every `k < j`. -/
def fillRow (col : List Nat) (j : Nat) : Option SROW :=
  forLoop (fun k ri =>
    (rd col k).bind (fun c =>
      (wr ri.col k c).bind (fun rc =>
        (wr ri.val k 1).map (fun rv => { ri with col := rc, val := rv }))))
    j ⟨j, List.replicate j 0, List.replicate j 0⟩

/-- Body of the row loop of `sm_input` for row `i`: read the label, scan the
columns, populate `M->row[i]`. -/
def sm_input_row (i : Nat) (st : ReadState) : Except Fault ReadState :=
  match st.fp with
  | Tok.rowHdr _ :: rest =>
    match scanCols rest st.col 0 with
    | .error f => .error f
    | .ok (col, j, rest2) =>
      match fillRow col j with
      | none => .error Fault.outOfBounds
      | some ri =>
        match wr st.M.row i ri with
        | none => .error Fault.outOfBounds
        | some rows => .ok ⟨{ st.M with row := rows }, col, rest2⟩
  | _ => .error Fault.readError

/-- Embedding of `sm_input`: read the dimensions, allocate the temporary array
of `n` cells and the matrix, then read the `m` rows. -/
def sm_input (fp : List Tok) : Except Fault SMAT :=
  match fp with
  | Tok.dims m n :: rest =>
    match sm_get m n with
    | none => .error Fault.outOfBounds
    | some M =>
      match forLoopE sm_input_row m ⟨M, List.replicate n 0, rest⟩ with
      | .error f => .error f
      | .ok st => .ok st.M
  | _ => .error Fault.readError

/-- The input text of one row: label `r`, columns `cs`, terminator `t`. -/
def rowToks (x : Nat × List Int × Int) : List Tok :=
  Tok.rowHdr x.1 :: (x.2.1.map Tok.num ++ [Tok.num x.2.2])

/-- The row that `sm_input` stores for the columns `cs`. -/
def builtRow (cs : List Int) : SROW :=
  ⟨cs.length, cs.map Int.toNat, List.replicate cs.length 1⟩

/-- The input text after the header: the texts of the rows `xs` in order,
then whatever follows them in the file. -/
def fileToks : List (Nat × List Int × Int) → List Tok → List Tok
  | [], trailing => trailing
  | x :: xs, trailing => rowToks x ++ fileToks xs trailing

/-! ## Well-formedness and statement-level accessors -/

/-- The arrays of a row have exactly `nnz` cells. -/
def SROW.shaped (r : SROW) : Prop := r.col.length = r.nnz ∧ r.val.length = r.nnz

instance (r : SROW) : Decidable r.shaped :=
  inferInstanceAs (Decidable (r.col.length = r.nnz ∧ r.val.length = r.nnz))

/-- The row table has `m` rows and every row is shaped. -/
def SMAT.shaped (M : SMAT) : Prop := M.row.length = M.m ∧ ∀ r ∈ M.row, r.shaped

instance (M : SMAT) : Decidable M.shaped :=
  inferInstanceAs (Decidable (M.row.length = M.m ∧ ∀ r ∈ M.row, r.shaped))

/-- Every stored column index is below `d`. -/
def SMAT.colsBelow (d : Nat) (M : SMAT) : Prop := ∀ r ∈ M.row, ∀ c ∈ r.col, c < d

instance (d : Nat) (M : SMAT) : Decidable (M.colsBelow d) :=
  inferInstanceAs (Decidable (∀ r ∈ M.row, ∀ c ∈ r.col, c < d))

/-- Well-formed matrix: shaped, and every column index is a valid column. -/
def SMAT.wf (M : SMAT) : Prop := M.shaped ∧ M.colsBelow M.n

instance (M : SMAT) : Decidable M.wf :=
  inferInstanceAs (Decidable (M.shaped ∧ M.colsBelow M.n))

/-- The entry array of a vector has `dim` cells. -/
def VEC.wf (v : VEC) : Prop := v.e.length = v.dim

instance (v : VEC) : Decidable v.wf :=
  inferInstanceAs (Decidable (v.e.length = v.dim))

/-- Row `i` of the row table (the empty row outside the table). -/
def SMAT.rowAt (M : SMAT) (i : Nat) : SROW := M.row.getD i emptyRow

/-- Number of stored entries `nnz(i)` of row `i`. -/
def SMAT.nnzAt (M : SMAT) (i : Nat) : Nat := (M.rowAt i).nnz

/-- Column index `col(i,k)` stored at position `k` of row `i`. -/
def SMAT.colAt (M : SMAT) (i k : Nat) : Nat := (M.rowAt i).col.getD k 0

/-- Value `val(i,k)` stored at position `k` of row `i`. -/
def SMAT.valAt (M : SMAT) (i k : Nat) : ℚ := (M.rowAt i).val.getD k 0

/-- Sum of the entries of a vector. -/
def VEC.total (v : VEC) : ℚ := v.e.sum

/-- Transpose product written from the specification: entry `j` collects
`val(i,k) * vec[i]` over every row `i < m` and every stored position
`k < nnz(i)` whose column is `j`. -/
def multiply_spec (vec : VEC) (H : SMAT) (j : Nat) : ℚ :=
  ∑ i ∈ Finset.range H.m, ∑ k ∈ Finset.range (H.nnzAt i),
    if H.colAt i k = j then H.valAt i k * vec.get i else 0

/-- Dangling mass written from the specification: the sum of `vec[r]*ALPHA`
over the rows `r < m` with `nnz = 0`. -/
def indicator_spec (ALPHA : ℚ) (vec : VEC) (H : SMAT) : ℚ :=
  ∑ r ∈ (Finset.range H.m).filter (fun r => H.nnzAt r = 0), vec.get r * ALPHA

/-- The row that `m_to_h` leaves in place of `r`: the same `nnz` and columns,
and `nnz` values `1/nnz`. -/
def normRow (r : SROW) : SROW := ⟨r.nnz, r.col, List.replicate r.nnz (1 / (r.nnz : ℚ))⟩

/-- The uniform vector of dimension `n`: every entry is `1/n`. -/
def uniformVec (n : Nat) : VEC := ⟨n, List.replicate n (1 / (n : ℚ))⟩

/-- The 3-cycle of the end-to-end scenario: rows `0:{1}`, `1:{2}`, `2:{0}`,
each stored value `1.0`. -/
def cycle3 : SMAT := ⟨3, 3, [⟨1, [1], [1]⟩, ⟨1, [2], [1]⟩, ⟨1, [0], [1]⟩]⟩

/-- The 2-by-2 scenario with a dangling node: row `0:{1}`, row `1` empty. -/
def dangling2 : SMAT := ⟨2, 2, [⟨1, [1], [1]⟩, ⟨0, [], []⟩]⟩

/-- A 2-by-2 matrix whose row `0` stores column `1` twice. -/
def dup2 : SMAT := ⟨2, 2, [⟨2, [1, 1], [1, 1]⟩, ⟨1, [0], [1]⟩]⟩

/-- The rows of the input file of the 3-cycle scenario (after the header). -/
def cycle3Rows : List Tok :=
  [Tok.rowHdr 0, Tok.num 1, Tok.num (-1), Tok.rowHdr 1, Tok.num 2,
    Tok.num (-1), Tok.rowHdr 2, Tok.num 0, Tok.num (-1)]

/-- A 1-by-1 input whose only row names column `5`. -/
def wideFile : List Tok := [Tok.dims 1 1, Tok.rowHdr 0, Tok.num 5, Tok.num (-1)]

/-- The vector `c*v + w`, entry by entry. -/
def VEC.axpy (c : ℚ) (v w : VEC) : VEC :=
  ⟨v.dim, List.zipWith (fun x y => c * x + y) v.e w.e⟩

/-- The mass held by the dangling rows: the sum of `v[i]` over the rows
`i < m` with `nnz = 0`. -/
def danglingMass (v : VEC) (M : SMAT) : ℚ :=
  ∑ i ∈ (Finset.range M.m).filter (fun i => M.nnzAt i = 0), v.get i

/-! ## Basic lemmas -/

theorem forLoop_inv {σ : Type} (body : Nat → σ → Option σ) (P : Nat → σ → Prop)
    (n : Nat) (s : σ) (h0 : P 0 s)
    (hstep : ∀ i t, i < n → P i t → ∃ t2, body i t = some t2 ∧ P (i + 1) t2) :
    ∃ t, forLoop body n s = some t ∧ P n t := by
  induction n with
  | zero => exact ⟨s, rfl, h0⟩
  | succ k ih =>
    obtain ⟨t, ht, hP⟩ := ih (fun i t hi hp => hstep i t (Nat.lt_succ_of_lt hi) hp)
    obtain ⟨t2, ht2, hP2⟩ := hstep k t (Nat.lt_succ_self k) hP
    exact ⟨t2, by simp [forLoop, ht, ht2], hP2⟩

theorem rd_of_lt {α : Type} (xs : List α) (i : Nat) (d : α) (h : i < xs.length) :
    rd xs i = some (xs.getD i d) := by
  simp [rd, List.getD, List.getElem?_eq_getElem h]

theorem wr_of_lt {α : Type} (xs : List α) (i : Nat) (x : α) (h : i < xs.length) :
    wr xs i x = some (xs.set i x) := by
  simp [wr, h]

theorem getD_set_eq {α : Type} (l : List α) (c t : Nat) (v d : α) (h : c < l.length) :
    (l.set c v).getD t d = if c = t then v else l.getD t d := by
  by_cases hct : c = t
  · subst hct
    simp [List.getD, List.getElem?_set, h]
  · simp [List.getD, List.getElem?_set, hct]

theorem VEC.rd_get (v : VEC) (i : Nat) (h : i < v.e.length) :
    v.rd i = some (v.get i) := by
  simp [VEC.rd, VEC.get, PageRank.rd_of_lt v.e i 0 h]

theorem VEC.wr_set (v : VEC) (i : Nat) (x : ℚ) (h : i < v.e.length) :
    v.wr i x = some { v with e := v.e.set i x } := by
  simp [VEC.wr, PageRank.wr_of_lt v.e i x h]

theorem getD_mem_of_lt {α : Type} (l : List α) (k : Nat) (d : α) (h : k < l.length) :
    l.getD k d ∈ l := by
  rw [List.getD_eq_getElem l d h]
  exact List.getElem_mem h

theorem rowAt_mem (M : SMAT) (i : Nat) (h : i < M.row.length) : M.rowAt i ∈ M.row :=
  getD_mem_of_lt M.row i emptyRow h

theorem v_get_get (n t : Nat) : (v_get n).get t = 0 := by
  simp only [VEC.get, v_get, List.getD_eq_getElem?_getD, List.getElem?_replicate]
  split <;> rfl

/-! ## The transition step `multiply` -/

theorem multiply_row_run (vec : VEC) (rj : SROW) (j d : Nat) (nv : VEC)
    (hj : j < vec.e.length) (hs : rj.shaped) (hc : ∀ c ∈ rj.col, c < d)
    (hnv : nv.e.length = d) :
    ∃ r, multiply_row vec rj j nv = some r ∧ r.dim = nv.dim ∧ r.e.length = d ∧
      ∀ t, r.get t = nv.get t + ∑ k ∈ Finset.range rj.nnz,
        if rj.col.getD k 0 = t then rj.val.getD k 0 * vec.get j else 0 := by
  unfold multiply_row
  refine forLoop_inv _ (fun k r => r.dim = nv.dim ∧ r.e.length = d ∧
      ∀ t, r.get t = nv.get t + ∑ k2 ∈ Finset.range k,
        if rj.col.getD k2 0 = t then rj.val.getD k2 0 * vec.get j else 0)
    rj.nnz nv ⟨rfl, hnv, by simp⟩ ?_
  rintro k r hk ⟨h1, h2, h3⟩
  have hkc : k < rj.col.length := by rw [hs.1]; exact hk
  have hkv : k < rj.val.length := by rw [hs.2]; exact hk
  have hcd : rj.col.getD k 0 < r.e.length := by
    rw [h2]; exact hc _ (getD_mem_of_lt rj.col k 0 hkc)
  refine ⟨⟨r.dim, r.e.set (rj.col.getD k 0)
      (r.get (rj.col.getD k 0) + rj.val.getD k 0 * vec.get j)⟩, ?_, h1, ?_, ?_⟩
  · rw [rd_of_lt rj.col k 0 hkc, rd_of_lt rj.val k 0 hkv, VEC.rd_get vec j hj]
    simp only [Option.some_bind]
    rw [VEC.rd_get r _ hcd]
    simp only [Option.some_bind]
    rw [VEC.wr_set r _ _ hcd]
  · simpa using h2
  · intro t
    have h3t := h3 t
    simp only [VEC.get] at h3t ⊢
    rw [getD_set_eq _ _ _ _ _ hcd, Finset.sum_range_succ]
    by_cases hct : rj.col.getD k 0 = t
    · subst hct
      simp only [if_true]
      rw [h3t]; ring
    · simp only [hct, if_false]
      rw [h3t]; ring

/-- Row `i` contributes `∑_k [col(i,k) = t] val(i,k) * vec[i]` to entry `t`. -/
theorem multiply_run (vec : VEC) (H : SMAT) (hs : H.shaped) (hc : H.colsBelow vec.dim)
    (hv : vec.wf) (hm : H.m ≤ vec.dim) :
    ∃ r, multiply vec H = some r ∧ r.dim = vec.dim ∧ r.e.length = vec.dim ∧
      ∀ t, r.get t = multiply_spec vec H t := by
  unfold multiply multiply_spec
  refine forLoop_inv _ (fun i r => r.dim = vec.dim ∧ r.e.length = vec.dim ∧
      ∀ t, r.get t = ∑ i2 ∈ Finset.range i, ∑ k ∈ Finset.range (H.nnzAt i2),
        if H.colAt i2 k = t then H.valAt i2 k * vec.get i2 else 0)
    H.m (v_get vec.dim) ⟨rfl, by simp [v_get], ?_⟩ ?_
  · intro t
    rw [v_get_get]; simp
  · rintro i r hi ⟨h1, h2, h3⟩
    have hil : i < H.row.length := by rw [hs.1]; exact hi
    have hmem : H.rowAt i ∈ H.row := rowAt_mem H i hil
    have hiv : i < vec.e.length := by rw [hv]; exact lt_of_lt_of_le hi hm
    obtain ⟨r2, hr2, g1, g2, g3⟩ := multiply_row_run vec (H.rowAt i) i vec.dim r hiv
      (hs.2 _ hmem) (hc _ hmem) h2
    refine ⟨r2, ?_, g1.trans h1, g2, ?_⟩
    · rw [rd_of_lt H.row i emptyRow hil]
      exact hr2
    · intro t
      rw [g3 t, h3 t, Finset.sum_range_succ]
      rfl

theorem list_sum_getD (l : List ℚ) :
    l.sum = ∑ i ∈ Finset.range l.length, l.getD i 0 := by
  induction l with
  | nil => simp
  | cons a l ih =>
    rw [List.sum_cons, List.length_cons, Finset.sum_range_succ', ih]
    simp [add_comm]

theorem multiply_total (vec : VEC) (H : SMAT) (hs : H.shaped) (hc : H.colsBelow vec.dim)
    (hv : vec.wf) (hm : H.m ≤ vec.dim) :
    ∃ r, multiply vec H = some r ∧
      r.total = ∑ i ∈ Finset.range H.m, (H.rowAt i).val.sum * vec.get i := by
  obtain ⟨r, hr, _, hlen, hspec⟩ := multiply_run vec H hs hc hv hm
  refine ⟨r, hr, ?_⟩
  have h1 : r.total = ∑ t ∈ Finset.range vec.dim, multiply_spec vec H t := by
    rw [VEC.total, list_sum_getD, hlen]
    exact Finset.sum_congr rfl (fun t _ => hspec t)
  rw [h1]
  unfold multiply_spec
  rw [Finset.sum_comm]
  refine Finset.sum_congr rfl ?_
  intro i hi
  have hi2 : i < H.row.length := by rw [hs.1]; exact Finset.mem_range.mp hi
  have hmem : H.rowAt i ∈ H.row := rowAt_mem H i hi2
  rw [Finset.sum_comm, list_sum_getD, (hs.2 _ hmem).2, Finset.sum_mul]
  refine Finset.sum_congr rfl ?_
  intro k hk
  have hk2 : k < (H.rowAt i).col.length := by
    rw [(hs.2 _ hmem).1]; exact Finset.mem_range.mp hk
  have hcol : H.colAt i k ∈ Finset.range vec.dim :=
    Finset.mem_range.mpr (hc _ hmem _ (getD_mem_of_lt _ k 0 hk2))
  rw [Finset.sum_ite_eq, if_pos hcol]
  rfl

/-! ## The damped update `surfeur` -/

theorem VEC.wr_run (v : VEC) (i : Nat) (x : ℚ) (h : i < v.e.length) :
    ∃ r, v.wr i x = some r ∧ r.dim = v.dim ∧ r.e.length = v.e.length ∧
      ∀ t, r.get t = if i = t then x else v.get t := by
  refine ⟨⟨v.dim, v.e.set i x⟩, VEC.wr_set v i x h, rfl, by simp, ?_⟩
  intro t
  exact getD_set_eq v.e i t x 0 h

theorem surfeur_scale_run (ALPHA : ℚ) (rk_old : VEC) (H : SMAT)
    (hrow : H.row.length = H.m) (hold : H.m ≤ rk_old.e.length) :
    ∃ st, surfeur_scale ALPHA rk_old H = some st ∧
      (st.1.e.length = H.m ∧ st.2.e.length = H.m ∧
      (∀ i, i < H.m → st.1.get i = rk_old.get i * ALPHA) ∧
      (∀ i, st.2.get i = if i < H.m ∧ H.nnzAt i = 0 then 1 else 0)) := by
  unfold surfeur_scale
  refine forLoop_inv _ (fun k (st : VEC × VEC) =>
      st.1.e.length = H.m ∧ st.2.e.length = H.m ∧
      (∀ i, i < k → st.1.get i = rk_old.get i * ALPHA) ∧
      (∀ i, st.2.get i = if i < k ∧ H.nnzAt i = 0 then 1 else 0))
    H.m (v_get H.m, v_get H.m)
    ⟨by simp [v_get], by simp [v_get], by simp, by intro i; simp [v_get_get]⟩ ?_
  · rintro k ⟨ra, a⟩ hk ⟨h1, h2, h3, h4⟩
    simp only at h1 h2 h3 h4
    have hkr : k < ra.e.length := by rw [h1]; exact hk
    have hka : k < a.e.length := by rw [h2]; exact hk
    obtain ⟨ra2, hra2, _, g2, g3⟩ := VEC.wr_run ra k (rk_old.get k * ALPHA) hkr
    obtain ⟨a2, ha2, _, f2, f3⟩ := VEC.wr_run a k 1 hka
    have hra3 : ∀ i, i < k + 1 → ra2.get i = rk_old.get i * ALPHA := by
      intro i hi
      rw [g3 i]
      by_cases hki : k = i
      · simp [hki]
      · simp only [hki, if_false]
        exact h3 i (by omega)
    simp only
    rw [VEC.rd_get rk_old k (lt_of_lt_of_le hk hold)]
    simp only [Option.some_bind]
    rw [hra2]
    simp only [Option.some_bind]
    rw [rd_of_lt H.row k emptyRow (by rw [hrow]; exact hk)]
    simp only [Option.some_bind]
    by_cases hz : (H.row.getD k emptyRow).nnz = 0
    · rw [if_pos hz, ha2]
      refine ⟨(ra2, a2), rfl, by rw [g2, h1], by rw [f2, h2], hra3, ?_⟩
      intro i
      show a2.get i = _
      rw [f3 i]
      by_cases hki : k = i
      · subst hki
        have hz2 : H.nnzAt k = 0 := hz
        simp [hz2]
      · rw [if_neg hki, h4 i]
        have : (i < k + 1 ∧ H.nnzAt i = 0) ↔ (i < k ∧ H.nnzAt i = 0) := by
          constructor
          · rintro ⟨a1, a2⟩; exact ⟨by omega, a2⟩
          · rintro ⟨a1, a2⟩; exact ⟨by omega, a2⟩
        simp only [this]
    · rw [if_neg hz]
      refine ⟨(ra2, a), rfl, by rw [g2, h1], h2, hra3, ?_⟩
      intro i
      show a.get i = _
      rw [h4 i]
      by_cases hki : k = i
      · subst hki
        have hz2 : ¬ H.nnzAt k = 0 := hz
        simp [hz2]
      · have : (i < k + 1 ∧ H.nnzAt i = 0) ↔ (i < k ∧ H.nnzAt i = 0) := by
          constructor
          · rintro ⟨a1, a2⟩; exact ⟨by omega, a2⟩
          · rintro ⟨a1, a2⟩; exact ⟨by omega, a2⟩
        simp only [this]

theorem surfeur_acc_run (ALPHA : ℚ) (a vec : VEC) (m : Nat)
    (ha : m ≤ a.e.length) (hv : m ≤ vec.e.length) :
    ∃ x, surfeur_acc ALPHA a vec m = some x ∧
      x = ∑ i ∈ Finset.range m, a.get i * vec.get i * ALPHA := by
  unfold surfeur_acc
  refine forLoop_inv _ (fun k (ind : ℚ) =>
      ind = ∑ i ∈ Finset.range k, a.get i * vec.get i * ALPHA) m 0 (by simp) ?_
  · intro k ind hk hind
    refine ⟨ind + a.get k * vec.get k * ALPHA, ?_, ?_⟩
    · rw [VEC.rd_get a k (lt_of_lt_of_le hk ha), VEC.rd_get vec k (lt_of_lt_of_le hk hv)]
      rfl
    · show _ = _
      rw [Finset.sum_range_succ, hind]

theorem surfeur_fill_run (ALPHA : ℚ) (ra : VEC) (ind std : ℚ) (m : Nat)
    (hra : m ≤ ra.e.length) :
    ∃ r, surfeur_fill ALPHA ra ind std m = some r ∧ r.dim = m ∧ r.e.length = m ∧
      ∀ i, i < m → r.get i = ra.get i + (ind + 1 - ALPHA) * std := by
  unfold surfeur_fill
  refine forLoop_inv _ (fun k (r : VEC) =>
      r.dim = m ∧ r.e.length = m ∧
      ∀ i, i < k → r.get i = ra.get i + (ind + 1 - ALPHA) * std) m (v_get m)
    ⟨rfl, by simp [v_get], by simp⟩ ?_
  · rintro k r hk ⟨h1, h2, h3⟩
    obtain ⟨r2, hr2, g1, g2, g3⟩ :=
      VEC.wr_run r k (ra.get k + (ind + 1 - ALPHA) * std) (by rw [h2]; exact hk)
    refine ⟨r2, ?_, g1.trans h1, g2.trans h2, ?_⟩
    · rw [VEC.rd_get ra k (lt_of_lt_of_le hk hra)]
      exact hr2
    · intro i hi
      rw [g3 i]
      by_cases hki : k = i
      · simp [hki]
      · rw [if_neg hki]
        exact h3 i (by omega)

theorem indicator_sum (ALPHA : ℚ) (a vec : VEC) (H : SMAT)
    (ha : ∀ i, a.get i = if i < H.m ∧ H.nnzAt i = 0 then 1 else 0) :
    ∑ i ∈ Finset.range H.m, a.get i * vec.get i * ALPHA = indicator_spec ALPHA vec H := by
  unfold indicator_spec
  rw [Finset.sum_filter]
  refine Finset.sum_congr rfl ?_
  intro i hi
  have hi2 : i < H.m := Finset.mem_range.mp hi
  rw [ha i]
  by_cases hz : H.nnzAt i = 0
  · simp [hi2, hz]
  · simp [hz]

theorem surfeur_run (ALPHA : ℚ) (vec : VEC) (H : SMAT) (hs : H.shaped)
    (hc : H.colsBelow vec.dim) (hv : vec.wf) (hm : H.m ≤ vec.dim) :
    ∃ raw r, multiply vec H = some raw ∧ raw.e.length = vec.dim ∧
      (∀ t, raw.get t = multiply_spec vec H t) ∧
      surfeur_indicator ALPHA vec H = some (indicator_spec ALPHA vec H) ∧
      surfeur ALPHA vec H = some r ∧ r.dim = H.m ∧ r.e.length = H.m ∧
      ∀ i, i < H.m → r.get i =
        raw.get i * ALPHA + (indicator_spec ALPHA vec H + 1 - ALPHA) * (1 / (H.m : ℚ)) := by
  obtain ⟨raw, hraw, _, hrl, hrs⟩ := multiply_run vec H hs hc hv hm
  obtain ⟨st, hst, h1, h2, h3, h4⟩ :=
    surfeur_scale_run ALPHA raw H hs.1 (by rw [hrl]; exact hm)
  obtain ⟨x, hx, hx2⟩ := surfeur_acc_run ALPHA st.2 vec H.m (le_of_eq h2.symm)
    (by rw [hv]; exact hm)
  rw [indicator_sum ALPHA st.2 vec H h4] at hx2
  subst hx2
  obtain ⟨r, hr, g1, g2, g3⟩ := surfeur_fill_run ALPHA st.1 (indicator_spec ALPHA vec H)
    (1 / (H.m : ℚ)) H.m (le_of_eq h1.symm)
  refine ⟨raw, r, hraw, hrl, hrs, ?_, ?_, g1, g2, ?_⟩
  · simp [surfeur_indicator, hraw, hst, hx]
  · simp only [surfeur, hraw, hst, hx, Option.some_bind]
    exact hr
  · intro i hi
    rw [g3 i hi, h3 i hi]

/-! ## The normaliser `m_to_h` -/

theorem ext_getD {α : Type} (l1 l2 : List α) (d : α) (hl : l1.length = l2.length)
    (h : ∀ i, i < l1.length → l1.getD i d = l2.getD i d) : l1 = l2 := by
  refine List.ext_getElem hl ?_
  intro i h1 h2
  have := h i h1
  rwa [List.getD_eq_getElem l1 d h1, List.getD_eq_getElem l2 d h2] at this

theorem m_to_h_row_run (r : SROW) (hval : r.val.length = r.nnz) :
    ∃ r2, m_to_h_row r = some r2 ∧ (r2.nnz = r.nnz ∧ r2.col = r.col ∧
      r2.val.length = r.nnz ∧ ∀ j, j < r.nnz → r2.val.getD j 0 = 1 / (r.nnz : ℚ)) := by
  unfold m_to_h_row
  refine forLoop_inv _ (fun k (r2 : SROW) => r2.nnz = r.nnz ∧ r2.col = r.col ∧
      r2.val.length = r.nnz ∧ ∀ j, j < k → r2.val.getD j 0 = 1 / (r.nnz : ℚ))
    r.nnz r ⟨rfl, rfl, hval, by simp⟩ ?_
  rintro k r2 hk ⟨h1, h2, h3, h4⟩
  have hnz : r2.nnz ≠ 0 := by rw [h1]; omega
  have hkl : k < r2.val.length := by rw [h3]; exact hk
  refine ⟨⟨r2.nnz, r2.col, r2.val.set k (1 / (r2.nnz : ℚ))⟩, ?_, h1, h2, ?_, ?_⟩
  · simp only [fdiv, if_neg hnz, Option.some_bind]
    rw [wr_of_lt r2.val k _ hkl]
    rfl
  · simpa using h3
  · intro j hj
    show (r2.val.set k (1 / (r2.nnz : ℚ))).getD j 0 = _
    rw [getD_set_eq _ _ _ _ _ hkl]
    by_cases hkj : k = j
    · rw [if_pos hkj, h1]
    · rw [if_neg hkj]
      exact h4 j (by omega)

theorem m_to_h_row_eq (r : SROW) (hval : r.val.length = r.nnz) :
    m_to_h_row r = some (normRow r) := by
  obtain ⟨r2, hr2, h1, h2, h3, h4⟩ := m_to_h_row_run r hval
  rw [hr2]
  congr 1
  cases r2 with
  | mk nnz2 col2 val2 =>
    simp only at h1 h2 h3 h4
    subst h1 h2
    simp only [normRow, SROW.mk.injEq, true_and]
    refine ext_getD _ _ 0 (by simp [h3]) ?_
    intro i hi
    rw [h4 i (by rw [← h3]; exact hi)]
    rw [List.getD_eq_getElem _ _ (by simpa [h3] using hi)]
    simp

theorem m_to_h_run (M : SMAT) (hs : M.shaped) :
    ∃ M2, m_to_h M = some M2 ∧ (M2.m = M.m ∧ M2.n = M.n ∧ M2.row.length = M.m ∧
      ∀ i, M2.row.getD i emptyRow =
        if i < M.m then normRow (M.rowAt i) else M.rowAt i) := by
  unfold m_to_h
  refine forLoop_inv _ (fun k (M2 : SMAT) => M2.m = M.m ∧ M2.n = M.n ∧
      M2.row.length = M.m ∧ ∀ i, M2.row.getD i emptyRow =
        if i < k then normRow (M.rowAt i) else M.rowAt i)
    M.m M ⟨rfl, rfl, hs.1, by intro i; simp [SMAT.rowAt]⟩ ?_
  rintro k M2 hk ⟨h1, h2, h3, h4⟩
  have hkl : k < M2.row.length := by rw [h3]; exact hk
  have hrow : M2.row.getD k emptyRow = M.rowAt k := by rw [h4 k]; simp
  have hmem : M.rowAt k ∈ M.row := rowAt_mem M k (by rw [hs.1]; exact hk)
  refine ⟨⟨M2.m, M2.n, M2.row.set k (normRow (M.rowAt k))⟩, ?_, h1, h2, ?_, ?_⟩
  · rw [rd_of_lt M2.row k emptyRow hkl, hrow]
    simp only [Option.some_bind]
    rw [m_to_h_row_eq _ (hs.2 _ hmem).2]
    rfl
  · simpa using h3
  · intro i
    show (M2.row.set k (normRow (M.rowAt k))).getD i emptyRow = _
    rw [getD_set_eq _ _ _ _ _ hkl]
    by_cases hki : k = i
    · subst hki
      simp
    · rw [if_neg hki, h4 i]
      by_cases hik : i < k
      · rw [if_pos hik, if_pos (by omega)]
      · rw [if_neg hik, if_neg (by omega)]

theorem m_to_h_eq (M : SMAT) (hs : M.shaped) :
    m_to_h M = some ⟨M.m, M.n, M.row.map normRow⟩ := by
  obtain ⟨M2, hM2, h1, h2, h3, h4⟩ := m_to_h_run M hs
  rw [hM2]
  congr 1
  cases M2 with
  | mk m2 n2 row2 =>
    simp only at h1 h2 h3 h4
    subst h1 h2
    simp only [SMAT.mk.injEq, true_and]
    refine ext_getD _ _ emptyRow (by simp [h3, hs.1]) ?_
    intro i hi
    have hi2 : i < M.row.length := by rw [hs.1, ← h3]; exact hi
    rw [h4 i, if_pos (by rw [← h3]; exact hi)]
    rw [List.getD_eq_getElem _ _ (by simpa using hi2)]
    simp only [SMAT.rowAt, List.getD_eq_getElem _ _ hi2, List.getElem_map]

theorem vec_eq_const (r : VEC) (m : Nat) (c : ℚ) (h1 : r.dim = m) (h2 : r.e.length = m)
    (h3 : ∀ i, i < m → r.get i = c) : r = ⟨m, List.replicate m c⟩ := by
  cases r with
  | mk d e =>
    simp only at h1 h2
    subst h1
    simp only [VEC.mk.injEq, true_and]
    refine ext_getD _ _ 0 (by simp [h2]) ?_
    intro i hi
    have hi2 : i < d := by rw [← h2]; exact hi
    have := h3 i hi2
    simp only [VEC.get] at this
    rw [this, List.getD_eq_getElem _ _ (by simpa using hi2)]
    simp

theorem createVec_eq (m : Nat) : createVec m = some (uniformVec m) := by
  obtain ⟨r, hr, h1, h2, h3⟩ : ∃ r, createVec m = some r ∧ (r.dim = m ∧ r.e.length = m ∧
      ∀ i, i < m → r.get i = 1 / (m : ℚ)) := by
    unfold createVec
    refine forLoop_inv _ (fun k (r : VEC) => r.dim = m ∧ r.e.length = m ∧
        ∀ i, i < k → r.get i = 1 / (m : ℚ)) m (v_get m) ⟨rfl, by simp [v_get], by simp⟩ ?_
    rintro k r hk ⟨h1, h2, h3⟩
    obtain ⟨r2, hr2, g1, g2, g3⟩ := VEC.wr_run r k (1 / (m : ℚ)) (by rw [h2]; exact hk)
    refine ⟨r2, hr2, g1.trans h1, g2.trans h2, ?_⟩
    intro i hi
    rw [g3 i]
    by_cases hki : k = i
    · rw [if_pos hki]
    · rw [if_neg hki]
      exact h3 i (by omega)
  rw [hr, vec_eq_const r m _ h1 h2 h3]
  rfl

theorem normRow_shaped (r : SROW) (h : r.shaped) : (normRow r).shaped :=
  ⟨h.1, by simp [normRow]⟩

theorem m_to_h_wf (M : SMAT) (hM : M.wf) :
    (⟨M.m, M.n, M.row.map normRow⟩ : SMAT).wf := by
  refine ⟨⟨by simpa using hM.1.1, ?_⟩, ?_⟩
  · intro r hr
    obtain ⟨r0, hr0, rfl⟩ := List.mem_map.mp hr
    exact normRow_shaped r0 (hM.1.2 r0 hr0)
  · intro r hr c hcm
    obtain ⟨r0, hr0, rfl⟩ := List.mem_map.mp hr
    exact hM.2 r0 hr0 c hcm

theorem surfeur_zero_eq (vec : VEC) (H : SMAT) (hs : H.shaped)
    (hc : H.colsBelow vec.dim) (hv : vec.wf) (hm : H.m ≤ vec.dim) :
    surfeur 0 vec H = some (uniformVec H.m) := by
  obtain ⟨raw, r, _, _, _, _, hr, h1, h2, h3⟩ := surfeur_run 0 vec H hs hc hv hm
  rw [hr, vec_eq_const r H.m (1 / (H.m : ℚ)) h1 h2 ?_]
  · rfl
  · intro i hi
    rw [h3 i hi]
    simp [indicator_spec]

theorem uniformVec_wf (n : Nat) : (uniformVec n).wf := by
  simp [uniformVec, VEC.wf]

theorem iterate_zero_uniform (H : SMAT) (hH : H.wf) (hsq : H.m = H.n) (K : Nat) :
    iterate 0 H K (uniformVec H.m) = some (uniformVec H.m) := by
  induction K with
  | zero => rfl
  | succ K ih =>
    simp only [iterate, ih, Option.some_bind]
    exact surfeur_zero_eq (uniformVec H.m) H hH.1 (by rw [hsq]; exact hH.2)
      (uniformVec_wf _) (le_refl _)

theorem iterate_total (ALPHA : ℚ) (H : SMAT) (hH : H.wf) (hsq : H.m = H.n) (K : Nat)
    (v : VEC) (hv : v.wf) (hd : v.dim = H.m) :
    ∃ r, iterate ALPHA H K v = some r ∧ r.wf ∧ r.dim = H.m := by
  induction K with
  | zero => exact ⟨v, rfl, hv, hd⟩
  | succ K ih =>
    obtain ⟨r, hr, hrw, hrd⟩ := ih
    obtain ⟨_, r2, _, _, _, _, hr2, g1, g2, _⟩ := surfeur_run ALPHA r H hH.1
      (by rw [hrd, hsq]; exact hH.2) hrw (le_of_eq hrd.symm)
    refine ⟨r2, ?_, ?_, g1⟩
    · simp only [iterate, hr, Option.some_bind]
      exact hr2
    · rw [VEC.wf, g2, g1]

theorem rowAt_map_normRow (M : SMAT) (i : Nat) (hi : i < M.row.length) :
    (⟨M.m, M.n, M.row.map normRow⟩ : SMAT).rowAt i = normRow (M.rowAt i) := by
  simp only [SMAT.rowAt]
  rw [List.getD_eq_getElem _ _ (by simpa using hi), List.getD_eq_getElem _ _ hi]
  simp

theorem vec_total_range (v : VEC) (m : Nat) (hv : v.wf) (hd : v.dim = m) :
    v.total = ∑ i ∈ Finset.range m, v.get i := by
  rw [VEC.total, list_sum_getD, hv, hd]
  rfl

theorem indicator_dangling2 (a x y : ℚ) :
    surfeur_indicator a ⟨2, [x, y]⟩ dangling2 = some (y * a) := by
  obtain ⟨_, _, _, _, _, h, _⟩ := surfeur_run a ⟨2, [x, y]⟩ dangling2 (by decide)
    (show dangling2.colsBelow 2 by decide) rfl (le_refl 2)
  rw [h]
  simp [indicator_spec, Finset.sum_filter, Finset.sum_range_succ, SMAT.nnzAt, SMAT.rowAt,
    dangling2, VEC.get]

/-! ## The reader `sm_input` -/

theorem sm_get_eq (m n : Nat) : sm_get m n = some ⟨m, n, List.replicate m emptyRow⟩ := by
  obtain ⟨M, hM, hP⟩ : ∃ M, sm_get m n = some M ∧
      M = (⟨m, n, List.replicate m emptyRow⟩ : SMAT) := by
    unfold sm_get
    refine forLoop_inv _ (fun _ (M : SMAT) => M = ⟨m, n, List.replicate m emptyRow⟩)
      m _ rfl ?_
    rintro i M hi rfl
    refine ⟨⟨m, n, (List.replicate m emptyRow).set i ⟨0, [], []⟩⟩, ?_, ?_⟩
    · rw [wr_of_lt _ _ _ (by simpa using hi)]
      rfl
    · simp only [SMAT.mk.injEq, true_and]
      refine ext_getD _ _ emptyRow (by simp) ?_
      intro k hk
      rw [getD_set_eq _ _ _ _ _ (by simpa using hi)]
      by_cases hik : i = k
      · rw [if_pos hik, List.getD_eq_getElem _ _ (by simpa using hk)]
        simp [emptyRow]
      · rw [if_neg hik]
  rw [hM, hP]

theorem forLoopE_inv {σ : Type} (body : Nat → σ → Except Fault σ) (P : Nat → σ → Prop)
    (n : Nat) (s : σ) (h0 : P 0 s)
    (hstep : ∀ i t, i < n → P i t → ∃ t2, body i t = .ok t2 ∧ P (i + 1) t2) :
    ∃ t, forLoopE body n s = .ok t ∧ P n t := by
  induction n with
  | zero => exact ⟨s, rfl, h0⟩
  | succ k ih =>
    obtain ⟨t, ht, hP⟩ := ih (fun i t hi hp => hstep i t (Nat.lt_succ_of_lt hi) hp)
    obtain ⟨t2, ht2, hP2⟩ := hstep k t (Nat.lt_succ_self k) hP
    exact ⟨t2, by simp [forLoopE, ht, ht2], hP2⟩

theorem forLoopE_ok_inv {σ : Type} (body : Nat → σ → Except Fault σ) (P : Nat → σ → Prop)
    (n : Nat) (s : σ) (h0 : P 0 s)
    (hstep : ∀ i a b, i < n → P i a → body i a = .ok b → P (i + 1) b) :
    ∀ t, forLoopE body n s = .ok t → P n t := by
  induction n with
  | zero =>
    intro t h
    simp only [forLoopE, Except.ok.injEq] at h
    exact h ▸ h0
  | succ k ih =>
    intro t h
    have ih2 := ih (fun i a b hi hp hb => hstep i a b (Nat.lt_succ_of_lt hi) hp hb)
    cases hk : forLoopE body k s with
    | error f => simp [forLoopE, hk] at h
    | ok a =>
      simp only [forLoopE, hk] at h
      exact hstep k a t (Nat.lt_succ_self k) (ih2 a hk) h

theorem scanCols_run (cs : List Int) (t : Int) (rest : List Tok) (hcs : ∀ c ∈ cs, 0 ≤ c)
    (ht : t < 0) :
    ∀ (col : List Nat) (j : Nat), j + cs.length ≤ col.length →
      ∃ col2, scanCols (cs.map Tok.num ++ Tok.num t :: rest) col j =
          .ok (col2, j + cs.length, rest) ∧ col2.length = col.length ∧
        (∀ i, i < j → col2.getD i 0 = col.getD i 0) ∧
        (∀ i, i < cs.length → col2.getD (j + i) 0 = (cs.getD i 0).toNat) := by
  induction cs with
  | nil =>
    intro col j _
    exact ⟨col, by simp [scanCols, ht], rfl, fun _ _ => rfl, by simp⟩
  | cons c cs ih =>
    intro col j hj
    have hc : ¬ c < 0 := not_lt.mpr (hcs c (List.mem_cons_self _ _))
    have hjl : j < col.length := by simp only [List.length_cons] at hj; omega
    obtain ⟨col2, h1, h2, h3, h4⟩ := ih (fun x hx => hcs x (List.mem_cons_of_mem _ hx))
      (col.set j c.toNat) (j + 1) (by simp only [List.length_cons] at hj; simp; omega)
    refine ⟨col2, ?_, by simpa using h2, ?_, ?_⟩
    · have e : scanCols (Tok.num c :: (cs.map Tok.num ++ Tok.num t :: rest)) col j =
          scanCols (cs.map Tok.num ++ Tok.num t :: rest) (col.set j c.toNat) (j + 1) := by
        rw [scanCols]
        simp only [if_neg hc, wr_of_lt col j _ hjl]
      rw [List.map_cons, List.cons_append, e, h1, List.length_cons,
        show j + 1 + cs.length = j + (cs.length + 1) by omega]
    · intro i hi
      rw [h3 i (by omega), getD_set_eq _ _ _ _ _ hjl, if_neg (by omega)]
    · intro i hi
      cases i with
      | zero =>
        rw [Nat.add_zero, h3 j (by omega), getD_set_eq _ _ _ _ _ hjl, if_pos rfl]
        simp
      | succ i =>
        have := h4 i (by simp only [List.length_cons] at hi; omega)
        rw [show j + (i + 1) = j + 1 + i by omega, this]
        simp

theorem scanCols_ok_inv (toks : List Tok) :
    ∀ (col : List Nat) (j : Nat) (col2 : List Nat) (j2 : Nat) (rest : List Tok),
      j ≤ col.length → scanCols toks col j = .ok (col2, j2, rest) →
      ∃ (cs : List Int) (t : Int),
        toks = cs.map Tok.num ++ Tok.num t :: rest ∧ (∀ c ∈ cs, 0 ≤ c) ∧ t < 0 ∧
        j2 = j + cs.length ∧ j + cs.length ≤ col.length := by
  induction toks with
  | nil => intro col j col2 j2 rest _ h; simp [scanCols] at h
  | cons tok toks ih =>
    intro col j col2 j2 rest hj h
    cases tok with
    | dims m n => simp [scanCols] at h
    | rowHdr r => simp [scanCols] at h
    | num c =>
      by_cases hc : c < 0
      · simp only [scanCols, if_pos hc, Except.ok.injEq, Prod.mk.injEq] at h
        obtain ⟨_, h2, h3⟩ := h
        exact ⟨[], c, by simp [h3], by simp, hc, by simp [h2], by simpa using hj⟩
      · simp only [scanCols, if_neg hc] at h
        by_cases hjl : j < col.length
        · rw [wr_of_lt col j _ hjl] at h
          obtain ⟨cs, t, h1, h2, h3, h4, h5⟩ := ih (col.set j c.toNat) (j + 1) col2 j2 rest
            (by simpa using hjl) h
          refine ⟨c :: cs, t, by simp [h1], ?_, h3, ?_, ?_⟩
          · intro x hx
            rcases List.mem_cons.mp hx with rfl | hx
            · exact not_lt.mp hc
            · exact h2 x hx
          · simp only [List.length_cons]; omega
          · simp only [List.length_cons]
            simp only [List.length_set] at h5
            omega
        · simp [wr, hjl] at h

theorem fillRow_run (col : List Nat) (j : Nat) (hj : j ≤ col.length) :
    ∃ ri, fillRow col j = some ri ∧ (ri.nnz = j ∧ ri.col.length = j ∧ ri.val.length = j ∧
      (∀ t, t < j → ri.col.getD t 0 = col.getD t 0) ∧
      (∀ t, t < j → ri.val.getD t 0 = 1)) := by
  unfold fillRow
  refine forLoop_inv _ (fun k (ri : SROW) => ri.nnz = j ∧ ri.col.length = j ∧
      ri.val.length = j ∧ (∀ t, t < k → ri.col.getD t 0 = col.getD t 0) ∧
      (∀ t, t < k → ri.val.getD t 0 = 1)) j _ ⟨rfl, by simp, by simp, by simp, by simp⟩ ?_
  rintro k ri hk ⟨h1, h2, h3, h4, h5⟩
  have hkc : k < ri.col.length := by rw [h2]; exact hk
  have hkv : k < ri.val.length := by rw [h3]; exact hk
  refine ⟨⟨ri.nnz, ri.col.set k (col.getD k 0), ri.val.set k 1⟩, ?_, h1, by simpa using h2,
    by simpa using h3, ?_, ?_⟩
  · rw [rd_of_lt col k 0 (lt_of_lt_of_le hk hj)]
    simp only [Option.some_bind]
    rw [wr_of_lt ri.col k _ hkc]
    simp only [Option.some_bind]
    rw [wr_of_lt ri.val k _ hkv]
    rfl
  · intro t ht
    show (ri.col.set k (col.getD k 0)).getD t 0 = _
    rw [getD_set_eq _ _ _ _ _ hkc]
    by_cases hkt : k = t
    · rw [if_pos hkt, hkt]
    · rw [if_neg hkt]
      exact h4 t (by omega)
  · intro t ht
    show (ri.val.set k 1).getD t 0 = _
    rw [getD_set_eq _ _ _ _ _ hkv]
    by_cases hkt : k = t
    · rw [if_pos hkt]
    · rw [if_neg hkt]
      exact h5 t (by omega)

theorem fillRow_scanned (cs : List Int) (col : List Nat) (hlen : cs.length ≤ col.length)
    (hcol : ∀ i, i < cs.length → col.getD i 0 = (cs.getD i 0).toNat) :
    fillRow col cs.length = some (builtRow cs) := by
  obtain ⟨ri, hri, h1, h2, h3, h4, h5⟩ := fillRow_run col cs.length hlen
  rw [hri]
  congr 1
  cases ri with
  | mk nnz2 col2 val2 =>
    simp only at h1 h2 h3 h4 h5
    subst h1
    simp only [builtRow, SROW.mk.injEq, true_and]
    constructor
    · refine ext_getD _ _ 0 (by simp [h2]) ?_
      intro i hi
      have hi2 : i < cs.length := by rw [← h2]; exact hi
      rw [h4 i hi2, hcol i hi2, List.getD_eq_getElem cs 0 hi2,
        List.getD_eq_getElem (cs.map Int.toNat) 0 (by simpa using hi2)]
      simp
    · refine ext_getD _ _ 0 (by simp [h3]) ?_
      intro i hi
      have hi2 : i < cs.length := by rw [← h3]; exact hi
      rw [h5 i hi2, List.getD_eq_getElem _ _ (by simpa using hi2)]
      simp

theorem sm_input_row_eval (i : Nat) (st : ReadState) (r : Nat) (cs : List Int) (t : Int)
    (rest : List Tok) (hfp : st.fp = Tok.rowHdr r :: (cs.map Tok.num ++ Tok.num t :: rest))
    (hcs : ∀ c ∈ cs, 0 ≤ c) (ht : t < 0) (hlen : cs.length ≤ st.col.length) :
    ∃ col2, col2.length = st.col.length ∧
      sm_input_row i st =
        match wr st.M.row i (builtRow cs) with
        | none => .error Fault.outOfBounds
        | some rows => .ok ⟨{ st.M with row := rows }, col2, rest⟩ := by
  obtain ⟨col2, h1, h2, _, h4⟩ := scanCols_run cs t rest hcs ht st.col 0 (by simpa using hlen)
  refine ⟨col2, h2, ?_⟩
  simp only [Nat.zero_add] at h1 h4
  have hfill := fillRow_scanned cs col2 (by rw [h2]; exact hlen) h4
  unfold sm_input_row
  rw [hfp]
  simp only [h1, hfill]

theorem sm_input_row_run (i : Nat) (st : ReadState) (r : Nat) (cs : List Int) (t : Int)
    (rest : List Tok) (hfp : st.fp = Tok.rowHdr r :: (cs.map Tok.num ++ Tok.num t :: rest))
    (hcs : ∀ c ∈ cs, 0 ≤ c) (ht : t < 0) (hlen : cs.length ≤ st.col.length)
    (hi : i < st.M.row.length) :
    ∃ col2, col2.length = st.col.length ∧
      sm_input_row i st =
        .ok ⟨⟨st.M.m, st.M.n, st.M.row.set i (builtRow cs)⟩, col2, rest⟩ := by
  obtain ⟨col2, h1, h2⟩ := sm_input_row_eval i st r cs t rest hfp hcs ht hlen
  refine ⟨col2, h1, ?_⟩
  rw [h2, wr_of_lt _ _ _ hi]

theorem sm_input_row_ok_inv (i : Nat) (st st2 : ReadState)
    (h : sm_input_row i st = .ok st2) :
    ∃ (r : Nat) (cs : List Int) (t : Int),
      st.fp = Tok.rowHdr r :: (cs.map Tok.num ++ Tok.num t :: st2.fp) ∧
      (∀ c ∈ cs, 0 ≤ c) ∧ t < 0 ∧ cs.length ≤ st.col.length ∧ i < st.M.row.length ∧
      st2.M = ⟨st.M.m, st.M.n, st.M.row.set i (builtRow cs)⟩ ∧
      st2.col.length = st.col.length := by
  cases hfp : st.fp with
  | nil => simp [sm_input_row, hfp] at h
  | cons tok rest =>
    cases tok with
    | dims m n => simp [sm_input_row, hfp] at h
    | num c => simp [sm_input_row, hfp] at h
    | rowHdr r =>
      cases hsc : scanCols rest st.col 0 with
      | error f => simp [sm_input_row, hfp, hsc] at h
      | ok res =>
        obtain ⟨col, j, rest2⟩ := res
        obtain ⟨cs, t, e1, e2, e3, _, e5⟩ := scanCols_ok_inv rest st.col 0 col j rest2
          (Nat.zero_le _) hsc
        simp only [Nat.zero_add] at e5
        obtain ⟨col2, g1, g2⟩ := sm_input_row_eval i st r cs t rest2 (by rw [hfp, e1])
          e2 e3 e5
        rw [g2] at h
        by_cases hi : i < st.M.row.length
        · rw [wr_of_lt _ _ _ hi] at h
          simp only [Except.ok.injEq] at h
          subst h
          exact ⟨r, cs, t, by rw [e1], e2, e3, e5, hi, rfl, g1⟩
        · simp [wr, hi] at h

theorem builtRow_shaped (cs : List Int) : (builtRow cs).shaped := by
  simp [builtRow, SROW.shaped]

theorem sm_input_run (m n : Nat) (rows : List (Nat × List Int × Int)) (trailing : List Tok)
    (hm : rows.length = m)
    (hrows : ∀ x ∈ rows, (∀ c ∈ x.2.1, 0 ≤ c) ∧ x.2.2 < 0 ∧ x.2.1.length ≤ n) :
    sm_input (Tok.dims m n :: fileToks rows trailing) =
      .ok ⟨m, n, rows.map (fun x => builtRow x.2.1)⟩ := by
  obtain ⟨st, hst, h1, h2, h3, _, _, h6⟩ := forLoopE_inv sm_input_row
    (fun k (st : ReadState) => st.M.m = m ∧ st.M.n = n ∧ st.M.row.length = m ∧
      st.col.length = n ∧ st.fp = fileToks (rows.drop k) trailing ∧
      ∀ i, i < k → st.M.row.getD i emptyRow = builtRow (rows.getD i (0, [], 0)).2.1)
    m ⟨⟨m, n, List.replicate m emptyRow⟩, List.replicate n 0, fileToks rows trailing⟩
    ⟨rfl, rfl, by simp, by simp, by simp, by simp⟩ (by
      rintro k st hk ⟨h1, h2, h3, h4, h5, h6⟩
      have hkl : k < rows.length := by rw [hm]; exact hk
      have hx := hrows _ (List.getElem_mem hkl)
      have hfp : st.fp = Tok.rowHdr (rows[k]).1 ::
          ((rows[k]).2.1.map Tok.num ++ Tok.num (rows[k]).2.2 ::
            fileToks (rows.drop (k + 1)) trailing) := by
        rw [h5, List.drop_eq_getElem_cons hkl]
        simp [fileToks, rowToks]
      obtain ⟨col2, g1, g2⟩ := sm_input_row_run k st _ _ _ _ hfp hx.1 hx.2.1
        (by rw [h4]; exact hx.2.2) (by rw [h3]; exact hk)
      refine ⟨_, g2, h1, h2, by simpa using h3, by rw [g1, h4], rfl, ?_⟩
      intro i hi
      show (st.M.row.set k (builtRow (rows[k]).2.1)).getD i emptyRow = _
      rw [getD_set_eq _ _ _ _ _ (by rw [h3]; exact hk)]
      by_cases hki : k = i
      · subst hki
        rw [if_pos rfl, List.getD_eq_getElem rows _ hkl]
      · rw [if_neg hki]
        exact h6 i (by omega))
  simp only [sm_input, sm_get_eq, hst]
  congr 1
  cases hM : st.M with
  | mk m2 n2 row2 =>
    rw [hM] at h1 h2 h3 h6
    simp only at h1 h2 h3 h6
    subst h1 h2
    simp only [SMAT.mk.injEq, true_and]
    refine ext_getD _ _ emptyRow (by simp [h3, hm]) ?_
    intro i hi
    have hi2 : i < rows.length := by rw [hm, ← h3]; exact hi
    rw [h6 i (by rw [← h3]; exact hi), List.getD_eq_getElem rows _ hi2,
      List.getD_eq_getElem (rows.map fun x => builtRow x.2.1) _ (by simpa using hi2)]
    simp

theorem sm_input_ok_inv (m n : Nat) (rest : List Tok) (M : SMAT)
    (h : sm_input (Tok.dims m n :: rest) = .ok M) :
    M.m = m ∧ M.n = n ∧ M.row.length = m ∧
      ∀ r ∈ M.row, r.shaped ∧ ∀ c ∈ r.col, Tok.num (c : Int) ∈ rest := by
  cases hl : forLoopE sm_input_row m
      ⟨⟨m, n, List.replicate m emptyRow⟩, List.replicate n 0, rest⟩ with
  | error f => simp [sm_input, sm_get_eq, hl] at h
  | ok st =>
    simp only [sm_input, sm_get_eq, hl, Except.ok.injEq] at h
    subst h
    obtain ⟨h1, h2, h3, _, h5⟩ := forLoopE_ok_inv sm_input_row
      (fun _ (st : ReadState) => st.M.m = m ∧ st.M.n = n ∧ st.M.row.length = m ∧
        (∀ tok ∈ st.fp, tok ∈ rest) ∧
        ∀ r ∈ st.M.row, r.shaped ∧ ∀ c ∈ r.col, Tok.num (c : Int) ∈ rest)
      m ⟨⟨m, n, List.replicate m emptyRow⟩, List.replicate n 0, rest⟩
      ⟨rfl, rfl, by simp, fun _ ht => ht, by
        intro r hr
        have : r = emptyRow := (List.mem_replicate.mp hr).2
        subst this
        exact ⟨by decide, by simp [emptyRow]⟩⟩
      (by
        rintro i a b _ ⟨h1, h2, h3, h4, h5⟩ hb
        obtain ⟨r, cs, t, e1, e2, _, _, _, e6, _⟩ := sm_input_row_ok_inv i a b hb
        have hsub : ∀ tok ∈ cs.map Tok.num ++ Tok.num t :: b.fp, tok ∈ rest := by
          intro tok htok
          exact h4 tok (by rw [e1]; exact List.mem_cons_of_mem _ htok)
        rw [e6]
        refine ⟨h1, h2, by simpa using h3, ?_, ?_⟩
        · intro tok htok
          exact hsub tok (List.mem_append_right _ (List.mem_cons_of_mem _ htok))
        · intro r2 hr2
          rcases List.mem_or_eq_of_mem_set hr2 with hr2 | rfl
          · exact h5 r2 hr2
          · refine ⟨builtRow_shaped cs, ?_⟩
            intro c hc
            obtain ⟨c2, hc2, rfl⟩ := List.mem_map.mp hc
            rw [Int.toNat_of_nonneg (e2 c2 hc2)]
            exact hsub _ (List.mem_append_left _ (List.mem_map_of_mem _ hc2)))
      st hl
    exact ⟨h1, h2, h3, h5⟩

/-! ## Mass, sign and linearity -/

theorem multiply_total_dangling (v : VEC) (M : SMAT) (hs : M.shaped)
    (hc : M.colsBelow v.dim) (hst : ∀ r ∈ M.row, 0 < r.nnz → r.val.sum = 1)
    (hv : v.wf) (hd : v.dim = M.m) :
    ∃ r, multiply v M = some r ∧ r.total = v.total - danglingMass v M := by
  obtain ⟨r, hr, htot⟩ := multiply_total v M hs hc hv (le_of_eq hd.symm)
  refine ⟨r, hr, ?_⟩
  rw [htot, vec_total_range v M.m hv hd, danglingMass, Finset.sum_filter,
    ← Finset.sum_sub_distrib]
  refine Finset.sum_congr rfl ?_
  intro i hi
  have hil : i < M.row.length := by rw [hs.1]; exact Finset.mem_range.mp hi
  have hmem := rowAt_mem M i hil
  by_cases hz : M.nnzAt i = 0
  · have hval : (M.rowAt i).val = [] :=
      List.length_eq_zero.mp (by rw [(hs.2 _ hmem).2]; exact hz)
    rw [if_pos hz, hval]
    simp
  · rw [if_neg hz, hst _ hmem (Nat.pos_of_ne_zero hz)]
    ring

theorem indicator_spec_eq (ALPHA : ℚ) (v : VEC) (H : SMAT) :
    indicator_spec ALPHA v H = danglingMass v H * ALPHA := by
  rw [indicator_spec, danglingMass, Finset.sum_mul]

theorem surfeur_total (ALPHA : ℚ) (v : VEC) (H : SMAT) (hH : H.wf) (hsq : H.m = H.n)
    (hpos : 0 < H.m) (hst : ∀ r ∈ H.row, 0 < r.nnz → r.val.sum = 1)
    (hv : v.wf) (hd : v.dim = H.m) (hsum : v.total = 1) :
    ∃ r, surfeur ALPHA v H = some r ∧ r.wf ∧ r.dim = H.m ∧ r.total = 1 := by
  have hc : H.colsBelow v.dim := by rw [hd, hsq]; exact hH.2
  obtain ⟨raw, r, h1, h2, _, _, h5, h6, h7, h8⟩ := surfeur_run ALPHA v H hH.1 hc hv
    (le_of_eq hd.symm)
  obtain ⟨raw2, g1, g2⟩ := multiply_total_dangling v H hH.1 hc hst hv hd
  rw [h1] at g1
  cases g1
  have hrw : r.wf := by rw [VEC.wf, h7, h6]
  refine ⟨r, h5, hrw, h6, ?_⟩
  have hraw : raw.total = ∑ i ∈ Finset.range H.m, raw.get i := by
    rw [VEC.total, list_sum_getD, h2, hd]
    rfl
  have hm0 : (H.m : ℚ) ≠ 0 := by
    have : H.m ≠ 0 := Nat.pos_iff_ne_zero.mp hpos
    exact_mod_cast this
  rw [vec_total_range r H.m hrw h6, Finset.sum_congr rfl (fun i hi => h8 i (Finset.mem_range.mp hi)),
    Finset.sum_add_distrib, ← Finset.sum_mul, ← hraw, g2, hsum, Finset.sum_const,
    Finset.card_range, nsmul_eq_mul, indicator_spec_eq]
  field_simp
  ring

theorem uniformVec_total (n : Nat) (hn : 0 < n) : (uniformVec n).total = 1 := by
  have hn0 : (n : ℚ) ≠ 0 := by
    have : n ≠ 0 := Nat.pos_iff_ne_zero.mp hn
    exact_mod_cast this
  simp only [uniformVec, VEC.total, List.sum_replicate, nsmul_eq_mul]
  field_simp

theorem iterate_stochastic (ALPHA : ℚ) (H : SMAT) (hH : H.wf) (hsq : H.m = H.n)
    (hpos : 0 < H.m) (hst : ∀ r ∈ H.row, 0 < r.nnz → r.val.sum = 1) (K : Nat)
    (v : VEC) (hv : v.wf) (hd : v.dim = H.m) (hsum : v.total = 1) :
    ∃ r, iterate ALPHA H K v = some r ∧ r.wf ∧ r.dim = H.m ∧ r.total = 1 := by
  induction K with
  | zero => exact ⟨v, rfl, hv, hd, hsum⟩
  | succ K ih =>
    obtain ⟨r, hr, hrw, hrd, hrs⟩ := ih
    obtain ⟨r2, hr2, g1, g2, g3⟩ := surfeur_total ALPHA r H hH hsq hpos hst hrw hrd hrs
    refine ⟨r2, ?_, g1, g2, g3⟩
    simp only [iterate, hr, Option.some_bind]
    exact hr2

theorem normRow_sum (r : SROW) (h : 0 < r.nnz) : (normRow r).val.sum = 1 := by
  have hne : (r.nnz : ℚ) ≠ 0 := by
    have : r.nnz ≠ 0 := Nat.pos_iff_ne_zero.mp h
    exact_mod_cast this
  simp only [normRow, List.sum_replicate, nsmul_eq_mul]
  field_simp

theorem getD_nonneg (l : List ℚ) (h : ∀ x ∈ l, 0 ≤ x) (i : Nat) : 0 ≤ l.getD i 0 := by
  by_cases hi : i < l.length
  · exact h _ (getD_mem_of_lt l i 0 hi)
  · rw [List.getD_eq_default _ _ (not_lt.mp hi)]

theorem valAt_nonneg (H : SMAT) (h : ∀ r ∈ H.row, ∀ x ∈ r.val, 0 ≤ x) (i k : Nat) :
    0 ≤ H.valAt i k := by
  by_cases hi : i < H.row.length
  · exact getD_nonneg _ (h _ (rowAt_mem H i hi)) k
  · have : H.rowAt i = emptyRow := List.getD_eq_default _ _ (not_lt.mp hi)
    simp [SMAT.valAt, this, emptyRow]

theorem multiply_spec_nonneg (v : VEC) (H : SMAT)
    (hval : ∀ r ∈ H.row, ∀ x ∈ r.val, 0 ≤ x) (hv : ∀ x ∈ v.e, 0 ≤ x) (t : Nat) :
    0 ≤ multiply_spec v H t := by
  unfold multiply_spec
  refine Finset.sum_nonneg (fun i _ => Finset.sum_nonneg (fun k _ => ?_))
  split
  · exact mul_nonneg (valAt_nonneg H hval i k) (getD_nonneg v.e hv i)
  · exact le_refl 0

theorem indicator_spec_nonneg (ALPHA : ℚ) (v : VEC) (H : SMAT) (ha : 0 ≤ ALPHA)
    (hv : ∀ x ∈ v.e, 0 ≤ x) : 0 ≤ indicator_spec ALPHA v H := by
  unfold indicator_spec
  exact Finset.sum_nonneg (fun i _ => mul_nonneg (getD_nonneg v.e hv i) ha)

theorem axpy_get (c : ℚ) (v w : VEC) (h : v.e.length = w.e.length) (i : Nat) :
    (VEC.axpy c v w).get i = c * v.get i + w.get i := by
  simp only [VEC.get, VEC.axpy]
  by_cases hi : i < v.e.length
  · have hi2 : i < w.e.length := by rw [← h]; exact hi
    rw [List.getD_eq_getElem _ _ (by simp [hi, hi2]), List.getD_eq_getElem _ _ hi,
      List.getD_eq_getElem _ _ hi2]
    simp
  · have hi2 : ¬ i < w.e.length := by rw [← h]; exact hi
    rw [List.getD_eq_default _ _ (by simp; omega), List.getD_eq_default _ _ (not_lt.mp hi),
      List.getD_eq_default _ _ (not_lt.mp hi2)]
    ring

theorem multiply_spec_axpy (c : ℚ) (v w : VEC) (H : SMAT) (h : v.e.length = w.e.length)
    (t : Nat) :
    multiply_spec (VEC.axpy c v w) H t = c * multiply_spec v H t + multiply_spec w H t := by
  unfold multiply_spec
  rw [Finset.mul_sum, ← Finset.sum_add_distrib]
  refine Finset.sum_congr rfl (fun i _ => ?_)
  rw [Finset.mul_sum, ← Finset.sum_add_distrib]
  refine Finset.sum_congr rfl (fun k _ => ?_)
  rw [axpy_get c v w h i]
  split
  · ring
  · ring

theorem multiply_spec_zero (d : Nat) (H : SMAT) (t : Nat) :
    multiply_spec (v_get d) H t = 0 := by
  unfold multiply_spec
  refine Finset.sum_eq_zero (fun i _ => Finset.sum_eq_zero (fun k _ => ?_))
  rw [v_get_get]
  simp

theorem vec_ext_get (r1 r2 : VEC) (h1 : r1.dim = r2.dim) (h2 : r1.e.length = r2.e.length)
    (h3 : ∀ i, r1.get i = r2.get i) : r1 = r2 := by
  cases r1 with
  | mk d1 e1 =>
    cases r2 with
    | mk d2 e2 =>
      simp only at h1 h2
      subst h1
      simp only [VEC.mk.injEq, true_and]
      exact ext_getD e1 e2 0 h2 (fun i _ => h3 i)

/-! ## Claims -/

/-- C1. For every damping value `ALPHA`, every well-formed square matrix `H`
with `n = H.m` rows and every vector `vec` of dimension `n`, `surfeur` returns a
vector of dimension `n` whose entry `i < n` is
`raw[i]*ALPHA + (indicator + 1 - ALPHA)*(1/n)`, where `raw = multiply(vec, H)`
and `indicator`, the scalar accumulated by the code, is the sum of
`vec[r]*ALPHA` over exactly the rows `r` with `nnz = 0`. -/
theorem surfeur_entry (ALPHA : ℚ) (vec : VEC) (H : SMAT) (hH : H.wf) (hsq : H.m = H.n)
    (hv : vec.wf) (hd : vec.dim = H.m) :
    ∃ raw r, multiply vec H = some raw ∧ raw.e.length = H.m ∧
      surfeur_indicator ALPHA vec H = some (indicator_spec ALPHA vec H) ∧
      surfeur ALPHA vec H = some r ∧ r.dim = H.m ∧ r.e.length = H.m ∧
      ∀ i, i < H.m → r.rd i = some
        (raw.get i * ALPHA + (indicator_spec ALPHA vec H + 1 - ALPHA) * (1 / (H.m : ℚ))) := by
  obtain ⟨raw, r, h1, h2, _, h4, h5, h6, h7, h8⟩ := surfeur_run ALPHA vec H hH.1
    (by rw [hd, hsq]; exact hH.2) hv (le_of_eq hd.symm)
  refine ⟨raw, r, h1, by rw [h2, hd], h4, h5, h6, h7, ?_⟩
  intro i hi
  rw [VEC.rd_get r i (by rw [h7]; exact hi), h8 i hi]

/-- C1 at the 2-by-2 dangling matrix, the vector `[1/4, 3/4]` and `ALPHA = 17/20`. -/
theorem surfeur_entry_witness :
    dangling2.wf ∧ dangling2.m = dangling2.n ∧ VEC.wf ⟨2, [1 / 4, 3 / 4]⟩ ∧
    ∃ raw r, multiply ⟨2, [1 / 4, 3 / 4]⟩ dangling2 = some raw ∧ raw.e.length = dangling2.m ∧
      surfeur_indicator (17 / 20) ⟨2, [1 / 4, 3 / 4]⟩ dangling2 =
        some (indicator_spec (17 / 20) ⟨2, [1 / 4, 3 / 4]⟩ dangling2) ∧
      surfeur (17 / 20) ⟨2, [1 / 4, 3 / 4]⟩ dangling2 = some r ∧ r.dim = dangling2.m ∧
      r.e.length = dangling2.m ∧
      ∀ i, i < dangling2.m → r.rd i = some
        (raw.get i * (17 / 20) +
          (indicator_spec (17 / 20) ⟨2, [1 / 4, 3 / 4]⟩ dangling2 + 1 - 17 / 20) *
            (1 / (dangling2.m : ℚ))) :=
  ⟨by decide, by decide, by decide,
    surfeur_entry (17 / 20) ⟨2, [1 / 4, 3 / 4]⟩ dangling2 (by decide) (by decide)
      (by decide) (by decide)⟩

/-- C2. For every matrix `H` and vector `vec` with `vec.dim ≥ H.m` and every
stored column index below `vec.dim`, `multiply` returns a vector of dimension
`vec.dim` whose entry `j` is the sum, over every row `i < H.m` and every stored
position `k < nnz(i)` with `col(i,k) = j`, of `val(i,k) * vec[i]` (a duplicated
column is counted once per position). -/
theorem multiply_transpose (vec : VEC) (H : SMAT) (hs : H.shaped) (hv : vec.wf)
    (hm : H.m ≤ vec.dim) (hc : H.colsBelow vec.dim) :
    ∃ r, multiply vec H = some r ∧ r.dim = vec.dim ∧ r.e.length = vec.dim ∧
      ∀ j, j < vec.dim → r.rd j = some
        (∑ i ∈ Finset.range H.m, ∑ k ∈ Finset.range (H.nnzAt i),
          if H.colAt i k = j then H.valAt i k * vec.get i else 0) := by
  obtain ⟨r, h1, h2, h3, h4⟩ := multiply_run vec H hs hc hv hm
  refine ⟨r, h1, h2, h3, ?_⟩
  intro j hj
  rw [VEC.rd_get r j (by rw [h3]; exact hj), h4 j]
  rfl

/-- C2 at a matrix with a duplicated column and a vector of dimension `3`. -/
theorem multiply_transpose_witness :
    dup2.shaped ∧ VEC.wf ⟨3, [1 / 2, 1 / 3, 1 / 6]⟩ ∧ dup2.m ≤ 3 ∧ dup2.colsBelow 3 ∧
    ∃ r, multiply ⟨3, [1 / 2, 1 / 3, 1 / 6]⟩ dup2 = some r ∧ r.dim = 3 ∧ r.e.length = 3 ∧
      ∀ j, j < 3 → r.rd j = some
        (∑ i ∈ Finset.range dup2.m, ∑ k ∈ Finset.range (dup2.nnzAt i),
          if dup2.colAt i k = j then
            dup2.valAt i k * VEC.get ⟨3, [1 / 2, 1 / 3, 1 / 6]⟩ i else 0) :=
  ⟨by decide, by decide, by decide, by decide,
    multiply_transpose ⟨3, [1 / 2, 1 / 3, 1 / 6]⟩ dup2 (by decide) (by decide)
      (by decide) (by decide)⟩

/-- C3. After `m_to_h(M)` every stored value of every row equals `1/nnz` of
that row, while `m`, `n`, the row table length, every row's `nnz` and every
row's column list are unchanged, and rows with `nnz = 0` stay empty. -/
theorem m_to_h_values (M : SMAT) (hs : M.shaped) :
    ∃ M2, m_to_h M = some M2 ∧ M2.m = M.m ∧ M2.n = M.n ∧
      M2.row.length = M.row.length ∧
      ∀ i, i < M.m →
        M2.nnzAt i = M.nnzAt i ∧ (M2.rowAt i).col = (M.rowAt i).col ∧
        (M2.rowAt i).val.length = M.nnzAt i ∧
        (∀ k, k < M.nnzAt i → M2.valAt i k = 1 / (M.nnzAt i : ℚ)) ∧
        (∀ x ∈ (M2.rowAt i).val, x = 1 / (M.nnzAt i : ℚ)) ∧
        (M.nnzAt i = 0 → (M2.rowAt i).col = [] ∧ (M2.rowAt i).val = []) := by
  refine ⟨_, m_to_h_eq M hs, rfl, rfl, by simp, ?_⟩
  intro i hi
  have hil : i < M.row.length := by rw [hs.1]; exact hi
  have hsh := hs.2 _ (rowAt_mem M i hil)
  simp only [SMAT.nnzAt, SMAT.valAt, rowAt_map_normRow M i hil]
  refine ⟨rfl, rfl, by simp [normRow], ?_, ?_, ?_⟩
  · intro k hk
    simp only [normRow]
    rw [List.getD_eq_getElem _ _ (by simpa using hk)]
    simp
  · intro x hx
    exact (List.mem_replicate.mp hx).2
  · intro hz
    refine ⟨List.length_eq_zero.mp (by rw [show (normRow (M.rowAt i)).col = (M.rowAt i).col
      from rfl, hsh.1, hz]), ?_⟩
    simp [normRow, hz]

/-- C3 at a matrix whose first row has two stored entries. -/
theorem m_to_h_values_witness :
    dup2.shaped ∧ ∃ M2, m_to_h dup2 = some M2 ∧ M2.m = dup2.m ∧ M2.n = dup2.n ∧
      M2.row.length = dup2.row.length ∧
      ∀ i, i < dup2.m →
        M2.nnzAt i = dup2.nnzAt i ∧ (M2.rowAt i).col = (dup2.rowAt i).col ∧
        (M2.rowAt i).val.length = dup2.nnzAt i ∧
        (∀ k, k < dup2.nnzAt i → M2.valAt i k = 1 / (dup2.nnzAt i : ℚ)) ∧
        (∀ x ∈ (M2.rowAt i).val, x = 1 / (dup2.nnzAt i : ℚ)) ∧
        (dup2.nnzAt i = 0 → (M2.rowAt i).col = [] ∧ (M2.rowAt i).val = []) :=
  ⟨by decide, m_to_h_values dup2 (by decide)⟩

/-- C4. After `m_to_h(M)` on a populated matrix, the values of every row with
`nnz > 0` sum to exactly `1`, and every row with `nnz = 0` remains empty. -/
theorem m_to_h_row_sums (M : SMAT) (hs : M.shaped) :
    ∃ M2, m_to_h M = some M2 ∧
      ∀ i, i < M.m → M2.nnzAt i = M.nnzAt i ∧
        (0 < M2.nnzAt i → (M2.rowAt i).val.sum = 1) ∧
        (M2.nnzAt i = 0 → (M2.rowAt i).col = [] ∧ (M2.rowAt i).val = []) := by
  refine ⟨_, m_to_h_eq M hs, ?_⟩
  intro i hi
  have hil : i < M.row.length := by rw [hs.1]; exact hi
  have hsh := hs.2 _ (rowAt_mem M i hil)
  simp only [SMAT.nnzAt, rowAt_map_normRow M i hil]
  refine ⟨rfl, ?_, ?_⟩
  · intro hpos
    have hne : ((M.rowAt i).nnz : ℚ) ≠ 0 := by
      have : (M.rowAt i).nnz ≠ 0 := Nat.pos_iff_ne_zero.mp hpos
      exact_mod_cast this
    simp only [normRow, List.sum_replicate, nsmul_eq_mul]
    field_simp
  · intro hz
    have hz2 : (M.rowAt i).nnz = 0 := hz
    refine ⟨List.length_eq_zero.mp (by rw [show (normRow (M.rowAt i)).col = (M.rowAt i).col
      from rfl, hsh.1, hz2]), ?_⟩
    simp [normRow, hz2]

/-- C4 at the 2-by-2 matrix with a dangling row. -/
theorem m_to_h_row_sums_witness :
    dangling2.shaped ∧ ∃ M2, m_to_h dangling2 = some M2 ∧
      ∀ i, i < dangling2.m → M2.nnzAt i = dangling2.nnzAt i ∧
        (0 < M2.nnzAt i → (M2.rowAt i).val.sum = 1) ∧
        (M2.nnzAt i = 0 → (M2.rowAt i).col = [] ∧ (M2.rowAt i).val = []) :=
  ⟨by decide, m_to_h_row_sums dangling2 (by decide)⟩

/-- C5. With the compiled damping `ALPHA = 0`, for every well-formed square
matrix `H` with `n` rows (dangling rows or not) and every vector of dimension
at least `n`, `surfeur` returns the vector whose every entry is `1/n`; and starting from
`createVec(n)`, `K` successive `surfeur` steps give the uniform vector for
every `K ≥ 0`. -/
theorem surfeur_alpha_zero_uniform (vec : VEC) (H : SMAT) (hH : H.wf) (hsq : H.m = H.n)
    (hv : vec.wf) (hd : H.m ≤ vec.dim) :
    ALPHA = 0 ∧
    surfeur ALPHA vec H = some ⟨H.m, List.replicate H.m (1 / (H.m : ℚ))⟩ ∧
    ∀ K, (createVec H.m).bind (iterate ALPHA H K) =
      some ⟨H.m, List.replicate H.m (1 / (H.m : ℚ))⟩ := by
  refine ⟨rfl, ?_, ?_⟩
  · exact surfeur_zero_eq vec H hH.1
      (fun r hr c hc => lt_of_lt_of_le (hH.2 r hr c hc) (by rw [← hsq]; exact hd)) hv hd
  · intro K
    rw [createVec_eq]
    exact iterate_zero_uniform H hH hsq K

/-- C5 at the 3-cycle: one step from any vector, and any number of steps from
`createVec(3)`, give `[1/3, 1/3, 1/3]`. -/
theorem surfeur_alpha_zero_uniform_witness :
    cycle3.wf ∧ cycle3.m = cycle3.n ∧ VEC.wf ⟨3, [1 / 2, 1 / 3, 1 / 6]⟩ ∧
    surfeur ALPHA ⟨3, [1 / 2, 1 / 3, 1 / 6]⟩ cycle3 = some ⟨3, [1 / 3, 1 / 3, 1 / 3]⟩ ∧
    ∀ K, (createVec 3).bind (iterate ALPHA cycle3 K) = some ⟨3, [1 / 3, 1 / 3, 1 / 3]⟩ :=
  ⟨by decide, by decide, by decide,
    (surfeur_alpha_zero_uniform ⟨3, [1 / 2, 1 / 3, 1 / 6]⟩ cycle3 (by decide) (by decide)
      (by decide) (by decide)).2⟩

/-- C6. Mass conservation: for every well-formed square matrix `M` with no
dangling row and every row's values summing to `1`, and every vector `v` of
dimension `M.m`, the entries of `multiply(v, M)` sum to the sum of the
entries of `v`. -/
theorem multiply_mass_conservation (v : VEC) (M : SMAT) (hM : M.wf) (hsq : M.m = M.n)
    (_hnd : ∀ r ∈ M.row, 0 < r.nnz) (hst : ∀ r ∈ M.row, r.val.sum = 1)
    (hv : v.wf) (hd : v.dim = M.m) :
    ∃ r, multiply v M = some r ∧ r.total = v.total := by
  obtain ⟨r, hr, htot⟩ := multiply_total v M hM.1 (by rw [hd, hsq]; exact hM.2) hv
    (le_of_eq hd.symm)
  refine ⟨r, hr, ?_⟩
  rw [htot, vec_total_range v M.m hv hd]
  refine Finset.sum_congr rfl ?_
  intro i hi
  have hil : i < M.row.length := by rw [hM.1.1]; exact Finset.mem_range.mp hi
  rw [hst _ (rowAt_mem M i hil), one_mul]

/-- C6 at the 3-cycle and the vector `[1/2, 1/3, 1/6]`. -/
theorem multiply_mass_conservation_witness :
    cycle3.wf ∧ cycle3.m = cycle3.n ∧ (∀ r ∈ cycle3.row, 0 < r.nnz) ∧
    (∀ r ∈ cycle3.row, r.val.sum = 1) ∧ VEC.wf ⟨3, [1 / 2, 1 / 3, 1 / 6]⟩ ∧
    ∃ r, multiply ⟨3, [1 / 2, 1 / 3, 1 / 6]⟩ cycle3 = some r ∧
      r.total = VEC.total ⟨3, [1 / 2, 1 / 3, 1 / 6]⟩ :=
  ⟨by decide, by decide, by decide, by simp [cycle3], by decide,
    multiply_mass_conservation ⟨3, [1 / 2, 1 / 3, 1 / 6]⟩ cycle3 (by decide) (by decide)
      (by decide) (by simp [cycle3]) (by decide) (by decide)⟩

/-- C7. Normalisation and iteration are total on well-formed inputs: for every
well-formed square matrix and every vector of dimension `n`, the checked
embeddings of `m_to_h`, `multiply` and `surfeur` (and hence of the iteration
and of the whole numeric pipeline) return a result, so no access leaves its
array and `m_to_h` never divides by a zero `nnz`. -/
theorem total_on_well_formed (ALPHA : ℚ) (M : SMAT) (v : VEC) (hM : M.wf)
    (hsq : M.m = M.n) (hv : v.wf) (hd : v.dim = M.n) :
    (m_to_h M).isSome ∧ (∀ r ∈ M.row, (m_to_h_row r).isSome) ∧
    (multiply v M).isSome ∧ (surfeur ALPHA v M).isSome ∧
    ∀ K, (iterate ALPHA M K v).isSome ∧ (pagerank ALPHA K M).isSome := by
  have hd2 : v.dim = M.m := by rw [hd, hsq]
  obtain ⟨_, r, h1, _, _, _, h5, _⟩ := surfeur_run ALPHA v M hM.1
    (by rw [hd]; exact hM.2) hv (le_of_eq hd2.symm)
  refine ⟨by simp [m_to_h_eq M hM.1], ?_, by simp [h1], by simp [h5], ?_⟩
  · intro r0 hr0
    simp [m_to_h_row_eq r0 (hM.1.2 r0 hr0).2]
  · intro K
    obtain ⟨r1, hr1, _⟩ := iterate_total ALPHA M hM hsq K v hv hd2
    obtain ⟨r2, hr2, _⟩ := iterate_total ALPHA ⟨M.m, M.n, M.row.map normRow⟩
      (m_to_h_wf M hM) hsq K (uniformVec M.m) (uniformVec_wf _) rfl
    refine ⟨by simp [hr1], ?_⟩
    simp only [pagerank, m_to_h_eq M hM.1, Option.some_bind, createVec_eq]
    simp [hr2]

/-- C7 at the 2-by-2 matrix with a dangling row and `ALPHA = 17/20`. -/
theorem total_on_well_formed_witness :
    dangling2.wf ∧ dangling2.m = dangling2.n ∧ VEC.wf ⟨2, [1 / 4, 3 / 4]⟩ ∧
    (m_to_h dangling2).isSome ∧ (∀ r ∈ dangling2.row, (m_to_h_row r).isSome) ∧
    (multiply ⟨2, [1 / 4, 3 / 4]⟩ dangling2).isSome ∧
    (surfeur (17 / 20) ⟨2, [1 / 4, 3 / 4]⟩ dangling2).isSome ∧
    ∀ K, (iterate (17 / 20) dangling2 K ⟨2, [1 / 4, 3 / 4]⟩).isSome ∧
      (pagerank (17 / 20) K dangling2).isSome :=
  ⟨by decide, by decide, by decide,
    total_on_well_formed (17 / 20) dangling2 ⟨2, [1 / 4, 3 / 4]⟩ (by decide) (by decide)
      (by decide) (by decide)⟩

/-- C10, as stated, fails: in the 2-by-2 dangling scenario with the compiled
`ALPHA = 0` and the vector `[1/2, 1/2]`, the scalar `indicator` of `surfeur` is
`0`, not the mass `vec[1] = 1/2` of the dangling row. -/
theorem indicator_is_not_dangling_mass :
    VEC.get ⟨2, [1 / 2, 1 / 2]⟩ 1 = 1 / 2 ∧
    surfeur_indicator ALPHA ⟨2, [1 / 2, 1 / 2]⟩ dangling2 = some 0 ∧
    surfeur_indicator ALPHA ⟨2, [1 / 2, 1 / 2]⟩ dangling2 ≠
      some (VEC.get ⟨2, [1 / 2, 1 / 2]⟩ 1) := by
  have h : surfeur_indicator ALPHA ⟨2, [1 / 2, 1 / 2]⟩ dangling2 = some 0 := by
    rw [indicator_dangling2 ALPHA (1 / 2) (1 / 2)]
    simp [ALPHA]
  refine ⟨by simp [VEC.get], h, ?_⟩
  rw [h]
  simp [VEC.get]

/-- C10, amended. In the 2-by-2 dangling scenario (normalisation leaves the
matrix as it is), for every current vector `[x, y]` the scalar `indicator` of
`surfeur` is `vec[1] * ALPHA`; with the compiled `ALPHA = 0` it is `0` at every
step, and the result of the step is the uniform vector `[1/2, 1/2]`. -/
theorem indicator_dangling_scenario (x y : ℚ) :
    m_to_h dangling2 = some dangling2 ∧
    (∀ a : ℚ, surfeur_indicator a ⟨2, [x, y]⟩ dangling2 = some (y * a)) ∧
    surfeur_indicator ALPHA ⟨2, [x, y]⟩ dangling2 = some 0 ∧
    surfeur ALPHA ⟨2, [x, y]⟩ dangling2 = some ⟨2, [1 / 2, 1 / 2]⟩ := by
  refine ⟨?_, fun a => indicator_dangling2 a x y, ?_, ?_⟩
  · rw [m_to_h_eq dangling2 (by decide)]
    simp [dangling2, normRow]
  · have h := indicator_dangling2 ALPHA x y
    simpa [ALPHA] using h
  · exact surfeur_zero_eq ⟨2, [x, y]⟩ dangling2 (by decide)
      (show dangling2.colsBelow 2 by decide) rfl (le_refl 2)

/-- C8, as stated, fails: `sm_input` stores the column `5` read from a 1-by-1
input, which is not a valid index in `[0, 1)`. -/
theorem sm_input_stores_wide_column :
    sm_input wideFile = .ok ⟨1, 1, [⟨1, [5], [1]⟩]⟩ ∧
    ¬ SMAT.colsBelow 1 ⟨1, 1, [⟨1, [5], [1]⟩]⟩ := by
  refine ⟨rfl, ?_⟩
  decide

/-- C8, amended. For every matrix built by `sm_input` from an input with header
dimensions `m` by `n`, the row table has length `m`, every row is shaped, and
every stored column index is a non-negative integer read from the input;
`sm_input` does not compare it with `n`, so the stored indices are valid
columns in `[0, n)` when every non-negative integer of the input is below `n`. -/
theorem sm_input_row_table (m n : Nat) (rest : List Tok) (M : SMAT)
    (h : sm_input (Tok.dims m n :: rest) = .ok M) :
    M.m = m ∧ M.n = n ∧ M.row.length = m ∧ M.shaped ∧
    (∀ r ∈ M.row, ∀ c ∈ r.col, Tok.num (c : Int) ∈ rest) ∧
    ((∀ c : Int, Tok.num c ∈ rest → 0 ≤ c → c < (n : Int)) → M.wf) := by
  obtain ⟨h1, h2, h3, h4⟩ := sm_input_ok_inv m n rest M h
  have hsh : M.shaped := ⟨by rw [h3, h1], fun r hr => (h4 r hr).1⟩
  refine ⟨h1, h2, h3, hsh, fun r hr => (h4 r hr).2, ?_⟩
  intro hin
  refine ⟨hsh, ?_⟩
  intro r hr c hc
  have := hin c ((h4 r hr).2 c hc) (Int.natCast_nonneg c)
  rw [h2]
  exact_mod_cast this

/-- C8 (amended) at the input file of the 3-cycle, which `sm_input` reads as `cycle3`. -/
theorem sm_input_row_table_witness :
    sm_input (Tok.dims 3 3 :: cycle3Rows) = .ok cycle3 ∧
    cycle3.m = 3 ∧ cycle3.n = 3 ∧ cycle3.row.length = 3 ∧ cycle3.shaped ∧
    (∀ r ∈ cycle3.row, ∀ c ∈ r.col, Tok.num (c : Int) ∈ cycle3Rows) ∧
    ((∀ c : Int, Tok.num c ∈ cycle3Rows → 0 ≤ c → c < ((3 : Nat) : Int)) → cycle3.wf) :=
  ⟨rfl, sm_input_row_table 3 3 cycle3Rows cycle3 rfl⟩

/-- Row population of `sm_input` while the scan stays inside the temporary
array: when the input holds, after the header `m` by `n`, `m` rows each made of
a label, at most `n` non-negative integers `cs` and a negative terminator,
`sm_input` returns the matrix whose row `i` stores exactly the integers `cs` of
row `i` in input order, with `nnz` their number and a value list of the same
length holding `1.0` everywhere; no negative value is stored. -/
theorem sm_input_rows (m n : Nat) (rows : List (Nat × List Int × Int))
    (trailing : List Tok) (hm : rows.length = m)
    (hrows : ∀ x ∈ rows, (∀ c ∈ x.2.1, 0 ≤ c) ∧ x.2.2 < 0 ∧ x.2.1.length ≤ n) :
    sm_input (Tok.dims m n :: fileToks rows trailing) =
      .ok ⟨m, n, rows.map (fun x => builtRow x.2.1)⟩ ∧
    ∀ x ∈ rows, (builtRow x.2.1).nnz = x.2.1.length ∧
      List.map Int.ofNat (builtRow x.2.1).col = x.2.1 ∧
      (builtRow x.2.1).val = List.replicate x.2.1.length 1 := by
  refine ⟨sm_input_run m n rows trailing hm hrows, ?_⟩
  intro x hx
  refine ⟨rfl, ?_, rfl⟩
  simp only [builtRow, List.map_map]
  have h : ∀ c ∈ x.2.1, (Int.ofNat ∘ Int.toNat) c = id c := by
    intro c hc
    exact Int.toNat_of_nonneg ((hrows x hx).1 c hc)
  rw [List.map_congr_left h, List.map_id]

/-- Row population at the input file of the 3-cycle. -/
theorem sm_input_rows_witness :
    ([(0, [1], -1), (1, [2], -1), (2, [0], -1)] : List (Nat × List Int × Int)).length = 3 ∧
    (∀ x ∈ ([(0, [1], -1), (1, [2], -1), (2, [0], -1)] : List (Nat × List Int × Int)),
      (∀ c ∈ x.2.1, 0 ≤ c) ∧ x.2.2 < 0 ∧ x.2.1.length ≤ 3) ∧
    sm_input (Tok.dims 3 3 :: fileToks [(0, [1], -1), (1, [2], -1), (2, [0], -1)] []) =
      .ok ⟨3, 3, List.map (fun x => builtRow x.2.1)
        ([(0, [1], -1), (1, [2], -1), (2, [0], -1)] : List (Nat × List Int × Int))⟩ :=
  ⟨rfl, by decide,
    (sm_input_rows 3 3 [(0, [1], -1), (1, [2], -1), (2, [0], -1)] [] rfl (by decide)).1⟩

/-- C11. Re-running the normaliser changes nothing further: for every matrix
`M`, `m_to_h` applied to the result of `m_to_h(M)` returns that result again. -/
theorem m_to_h_idempotent (M : SMAT) (hs : M.shaped) :
    ∃ M2, m_to_h M = some M2 ∧ m_to_h M2 = some M2 ∧
      (m_to_h M).bind m_to_h = m_to_h M := by
  have h1 := m_to_h_eq M hs
  have hs2 : (⟨M.m, M.n, M.row.map normRow⟩ : SMAT).shaped := by
    refine ⟨by simpa using hs.1, ?_⟩
    intro r hr
    obtain ⟨r0, hr0, rfl⟩ := List.mem_map.mp hr
    exact normRow_shaped r0 (hs.2 r0 hr0)
  have h2 : m_to_h ⟨M.m, M.n, M.row.map normRow⟩ = some ⟨M.m, M.n, M.row.map normRow⟩ := by
    rw [m_to_h_eq _ hs2]
    simp only [List.map_map]
    rfl
  refine ⟨_, h1, h2, ?_⟩
  rw [h1, Option.some_bind, h2]

/-- C11 at a raw matrix whose first row has two stored entries. -/
theorem m_to_h_idempotent_witness :
    dup2.shaped ∧ ∃ M2, m_to_h dup2 = some M2 ∧ m_to_h M2 = some M2 ∧
      (m_to_h dup2).bind m_to_h = m_to_h dup2 :=
  ⟨by decide, m_to_h_idempotent dup2 (by decide)⟩

/-- C12. For every `m ≥ 0`, `createVec(m)` returns a vector of dimension `m`
whose every entry is `1/m`; for `m > 0` its entries sum to `1`. -/
theorem createVec_uniform (m : Nat) :
    ∃ r, createVec m = some r ∧ r.dim = m ∧ r.e.length = m ∧
      (∀ i, i < m → r.rd i = some (1 / (m : ℚ))) ∧ (0 < m → r.total = 1) := by
  refine ⟨uniformVec m, createVec_eq m, rfl, by simp [uniformVec], ?_, uniformVec_total m⟩
  intro i hi
  rw [VEC.rd_get _ i (by simpa [uniformVec] using hi)]
  simp only [VEC.get, uniformVec]
  rw [List.getD_eq_getElem _ _ (by simpa using hi)]
  simp

/-- C12 at `m = 4`: four entries `1/4`, of sum `1`. -/
theorem createVec_uniform_witness :
    0 < 4 ∧ ∃ r, createVec 4 = some r ∧ r.dim = 4 ∧ r.e.length = 4 ∧
      (∀ i, i < 4 → r.rd i = some (1 / ((4 : Nat) : ℚ))) ∧ r.total = 1 := by
  obtain ⟨r, h1, h2, h3, h4, h5⟩ := createVec_uniform 4
  exact ⟨by decide, r, h1, h2, h3, h4, h5 (by decide)⟩

/-- C13. For every size `m`, `v_get(m)` returns a vector with `dim = m`, an
entry array of length `m`, and every entry equal to `0`. -/
theorem v_get_zero (m : Nat) :
    (v_get m).dim = m ∧ (v_get m).e.length = m ∧
    (∀ i, i < m → (v_get m).rd i = some 0) ∧ (∀ x ∈ (v_get m).e, x = 0) := by
  refine ⟨rfl, by simp [v_get], ?_, ?_⟩
  · intro i hi
    rw [VEC.rd_get _ i (by simpa [v_get] using hi), v_get_get]
  · intro x hx
    exact (List.mem_replicate.mp hx).2

/-- C13 at `m = 3`. -/
theorem v_get_zero_witness :
    (v_get 3).dim = 3 ∧ (v_get 3).e.length = 3 ∧ (v_get 3).rd 2 = some 0 ∧
    (∀ x ∈ (v_get 3).e, x = 0) :=
  ⟨(v_get_zero 3).1, (v_get_zero 3).2.1, (v_get_zero 3).2.2.1 2 (by decide),
    (v_get_zero 3).2.2.2⟩

/-- C14. For every `m` and `n`, `sm_get(m, n)` returns a matrix with row count
`m`, column count `n` and a row table of exactly `m` rows, each with `nnz = 0`
and empty column and value lists. -/
theorem sm_get_empty (m n : Nat) :
    ∃ M, sm_get m n = some M ∧ M.m = m ∧ M.n = n ∧ M.row.length = m ∧
      (∀ r ∈ M.row, r.nnz = 0 ∧ r.col = [] ∧ r.val = []) ∧
      (∀ i, i < m → rd M.row i = some ⟨0, [], []⟩) := by
  refine ⟨_, sm_get_eq m n, rfl, rfl, by simp, ?_, ?_⟩
  · intro r hr
    have : r = emptyRow := (List.mem_replicate.mp hr).2
    subst this
    exact ⟨rfl, rfl, rfl⟩
  · intro i hi
    rw [rd_of_lt _ i emptyRow (by simpa using hi),
      List.getD_eq_getElem _ _ (by simpa using hi)]
    simp [emptyRow]

/-- C14 at `m = 2`, `n = 3`. -/
theorem sm_get_empty_witness :
    ∃ M, sm_get 2 3 = some M ∧ M.m = 2 ∧ M.n = 3 ∧ M.row.length = 2 ∧
      (∀ r ∈ M.row, r.nnz = 0 ∧ r.col = [] ∧ r.val = []) ∧
      rd M.row 1 = some ⟨0, [], []⟩ := by
  obtain ⟨M, h1, h2, h3, h4, h5, h6⟩ := sm_get_empty 2 3
  exact ⟨M, h1, h2, h3, h4, h5, h6 1 (by decide)⟩

/-- C15. Dangling rows lose their mass in `multiply`: for every well-formed
square matrix `M` whose rows with `nnz > 0` have values summing to `1`, and
every vector `v` of dimension `M.m`, the entries of `multiply(v, M)` sum to the
sum of the entries of `v` minus the sum of `v[i]` over the rows `i` with
`nnz = 0`. -/
theorem multiply_loses_dangling_mass (v : VEC) (M : SMAT) (hM : M.wf) (hsq : M.m = M.n)
    (hst : ∀ r ∈ M.row, 0 < r.nnz → r.val.sum = 1) (hv : v.wf) (hd : v.dim = M.m) :
    ∃ r, multiply v M = some r ∧
      r.total = v.total -
        ∑ i ∈ (Finset.range M.m).filter (fun i => M.nnzAt i = 0), v.get i :=
  multiply_total_dangling v M hM.1 (by rw [hd, hsq]; exact hM.2) hst hv hd

/-- C15 at the 2-by-2 matrix with a dangling row and the vector `[1/4, 3/4]`. -/
theorem multiply_loses_dangling_mass_witness :
    dangling2.wf ∧ dangling2.m = dangling2.n ∧
    (∀ r ∈ dangling2.row, 0 < r.nnz → r.val.sum = 1) ∧ VEC.wf ⟨2, [1 / 4, 3 / 4]⟩ ∧
    ∃ r, multiply ⟨2, [1 / 4, 3 / 4]⟩ dangling2 = some r ∧
      r.total = VEC.total ⟨2, [1 / 4, 3 / 4]⟩ -
        ∑ i ∈ (Finset.range dangling2.m).filter (fun i => dangling2.nnzAt i = 0),
          VEC.get ⟨2, [1 / 4, 3 / 4]⟩ i :=
  ⟨by decide, by decide, by simp [dangling2], by decide,
    multiply_loses_dangling_mass ⟨2, [1 / 4, 3 / 4]⟩ dangling2 (by decide) (by decide)
      (by simp [dangling2]) (by decide) (by decide)⟩

/-- C16. `surfeur` preserves total probability for every damping value: for
every `ALPHA`, every well-formed square matrix `H` with `n > 0` rows whose
non-empty rows have values summing to `1`, and every vector `v` of dimension `n`
whose entries sum to `1`, the entries of `surfeur(v, H)` sum to `1`; hence every
iterate started from `createVec(n)` sums to `1`, and so does every iterate of
the driver that first normalises `H`. -/
theorem surfeur_preserves_total (ALPHA : ℚ) (v : VEC) (H : SMAT) (hH : H.wf)
    (hsq : H.m = H.n) (hpos : 0 < H.m) (hst : ∀ r ∈ H.row, 0 < r.nnz → r.val.sum = 1)
    (hv : v.wf) (hd : v.dim = H.m) (hsum : v.total = 1) :
    (∃ r, surfeur ALPHA v H = some r ∧ r.dim = H.m ∧ r.total = 1) ∧
    (∀ K, ∃ r, (createVec H.m).bind (iterate ALPHA H K) = some r ∧ r.total = 1) ∧
    (∀ K, ∃ r, pagerank ALPHA K H = some r ∧ r.total = 1) := by
  refine ⟨?_, ?_, ?_⟩
  · obtain ⟨r, h1, _, h3, h4⟩ := surfeur_total ALPHA v H hH hsq hpos hst hv hd hsum
    exact ⟨r, h1, h3, h4⟩
  · intro K
    obtain ⟨r, h1, _, _, h4⟩ := iterate_stochastic ALPHA H hH hsq hpos hst K
      (uniformVec H.m) (uniformVec_wf _) rfl (uniformVec_total _ hpos)
    exact ⟨r, by rw [createVec_eq]; exact h1, h4⟩
  · intro K
    have hst2 : ∀ r ∈ (⟨H.m, H.n, H.row.map normRow⟩ : SMAT).row,
        0 < r.nnz → r.val.sum = 1 := by
      intro r hr hr2
      obtain ⟨r0, _, rfl⟩ := List.mem_map.mp hr
      exact normRow_sum r0 hr2
    obtain ⟨r, h1, _, _, h4⟩ := iterate_stochastic ALPHA ⟨H.m, H.n, H.row.map normRow⟩
      (m_to_h_wf H hH) hsq hpos hst2 K (uniformVec H.m) (uniformVec_wf _) rfl
      (uniformVec_total _ hpos)
    refine ⟨r, ?_, h4⟩
    simp only [pagerank, m_to_h_eq H hH.1, Option.some_bind, createVec_eq]
    exact h1

/-- C16 at the 2-by-2 matrix with a dangling row, `[1/4, 3/4]` and `ALPHA = 17/20`. -/
theorem surfeur_preserves_total_witness :
    dangling2.wf ∧ dangling2.m = dangling2.n ∧ 0 < dangling2.m ∧
    (∀ r ∈ dangling2.row, 0 < r.nnz → r.val.sum = 1) ∧ VEC.wf ⟨2, [1 / 4, 3 / 4]⟩ ∧
    VEC.total ⟨2, [1 / 4, 3 / 4]⟩ = 1 ∧
    (∃ r, surfeur (17 / 20) ⟨2, [1 / 4, 3 / 4]⟩ dangling2 = some r ∧ r.dim = dangling2.m ∧
      r.total = 1) ∧
    (∀ K, ∃ r, (createVec dangling2.m).bind (iterate (17 / 20) dangling2 K) = some r ∧
      r.total = 1) ∧
    (∀ K, ∃ r, pagerank (17 / 20) K dangling2 = some r ∧ r.total = 1) :=
  ⟨by decide, by decide, by decide, by simp [dangling2], by decide,
    by norm_num [VEC.total],
    surfeur_preserves_total (17 / 20) ⟨2, [1 / 4, 3 / 4]⟩ dangling2 (by decide) (by decide)
      (by decide) (by simp [dangling2]) (by decide) (by decide) (by norm_num [VEC.total])⟩

/-- C17. `surfeur` preserves non-negativity: for every `ALPHA` with
`0 ≤ ALPHA ≤ 1`, every well-formed square matrix `H` with non-negative stored
values, and every vector `v` of dimension `n = H.m` with all entries `≥ 0`,
every entry of `surfeur(v, H)` is `≥ 0` and at least `(1 - ALPHA)/n`. -/
theorem surfeur_nonneg (ALPHA : ℚ) (v : VEC) (H : SMAT) (ha0 : 0 ≤ ALPHA)
    (ha1 : ALPHA ≤ 1) (hH : H.wf) (hsq : H.m = H.n)
    (hval : ∀ r ∈ H.row, ∀ x ∈ r.val, 0 ≤ x) (hv : v.wf) (hd : v.dim = H.m)
    (hnn : ∀ x ∈ v.e, 0 ≤ x) :
    ∃ r, surfeur ALPHA v H = some r ∧ r.dim = H.m ∧ r.e.length = H.m ∧
      ∀ i, i < H.m → ∃ x, r.rd i = some x ∧ 0 ≤ x ∧ (1 - ALPHA) / (H.m : ℚ) ≤ x := by
  obtain ⟨raw, r, _, _, h3, _, h5, h6, h7, h8⟩ := surfeur_run ALPHA v H hH.1
    (by rw [hd, hsq]; exact hH.2) hv (le_of_eq hd.symm)
  refine ⟨r, h5, h6, h7, ?_⟩
  intro i hi
  refine ⟨_, by rw [VEC.rd_get r i (by rw [h7]; exact hi), h8 i hi], ?_⟩
  have hraw : 0 ≤ raw.get i * ALPHA := by
    rw [h3 i]
    exact mul_nonneg (multiply_spec_nonneg v H hval hnn i) ha0
  have hind : 0 ≤ indicator_spec ALPHA v H := indicator_spec_nonneg ALPHA v H ha0 hnn
  have hm : (0 : ℚ) ≤ 1 / (H.m : ℚ) := by positivity
  have hbase : 0 ≤ (1 - ALPHA) / (H.m : ℚ) :=
    div_nonneg (by linarith) (Nat.cast_nonneg _)
  have hlow : (1 - ALPHA) / (H.m : ℚ) ≤
      raw.get i * ALPHA + (indicator_spec ALPHA v H + 1 - ALPHA) * (1 / (H.m : ℚ)) := by
    have : (indicator_spec ALPHA v H + 1 - ALPHA) * (1 / (H.m : ℚ)) =
        indicator_spec ALPHA v H * (1 / (H.m : ℚ)) + (1 - ALPHA) / (H.m : ℚ) := by ring
    rw [this]
    have := mul_nonneg hind hm
    linarith
  exact ⟨le_trans hbase hlow, hlow⟩

/-- C17 at the 2-by-2 matrix with a dangling row, `[1/4, 3/4]` and `ALPHA = 17/20`. -/
theorem surfeur_nonneg_witness :
    (0 : ℚ) ≤ 17 / 20 ∧ (17 / 20 : ℚ) ≤ 1 ∧ dangling2.wf ∧ dangling2.m = dangling2.n ∧
    (∀ r ∈ dangling2.row, ∀ x ∈ r.val, 0 ≤ x) ∧ VEC.wf ⟨2, [1 / 4, 3 / 4]⟩ ∧
    (∀ x ∈ VEC.e ⟨2, [1 / 4, 3 / 4]⟩, 0 ≤ x) ∧
    ∃ r, surfeur (17 / 20) ⟨2, [1 / 4, 3 / 4]⟩ dangling2 = some r ∧ r.dim = dangling2.m ∧
      r.e.length = dangling2.m ∧
      ∀ i, i < dangling2.m → ∃ x, r.rd i = some x ∧ 0 ≤ x ∧
        (1 - 17 / 20) / (dangling2.m : ℚ) ≤ x :=
  ⟨by norm_num, by norm_num, by decide, by decide, by simp [dangling2], by decide,
    by norm_num,
    surfeur_nonneg (17 / 20) ⟨2, [1 / 4, 3 / 4]⟩ dangling2 (by norm_num) (by norm_num)
      (by decide) (by decide) (by simp [dangling2]) (by decide) (by decide) (by norm_num)⟩

/-- C18. `multiply` is linear in its vector argument: for every matrix `H` with
valid column indices, every scalar `c` and all vectors `v`, `w` of the same
dimension (at least `H.m`), `multiply(c*v + w, H)` is `c*multiply(v, H) +
multiply(w, H)` entry by entry; in particular `multiply` of the zero vector is
the zero vector. -/
theorem multiply_linear (c : ℚ) (v w : VEC) (H : SMAT) (hs : H.shaped)
    (hc : H.colsBelow v.dim) (hv : v.wf) (hw : w.wf) (hvw : v.dim = w.dim)
    (hm : H.m ≤ v.dim) :
    (∃ rv rw r, multiply v H = some rv ∧ multiply w H = some rw ∧
      multiply (VEC.axpy c v w) H = some r ∧ r = VEC.axpy c rv rw ∧
      ∀ j, r.get j = c * rv.get j + rw.get j) ∧
    multiply (v_get v.dim) H = some (v_get v.dim) := by
  have hlen : v.e.length = w.e.length := by rw [hv, hw, hvw]
  have hax : (VEC.axpy c v w).wf := by
    simp only [VEC.wf, VEC.axpy, List.length_zipWith, ← hlen, min_self]
    exact hv
  obtain ⟨rv, a1, a2, a3, a4⟩ := multiply_run v H hs hc hv hm
  obtain ⟨rw, b1, b2, b3, b4⟩ := multiply_run w H hs (by rw [← hvw]; exact hc) hw
    (by rw [← hvw]; exact hm)
  obtain ⟨r, c1, c2, c3, c4⟩ := multiply_run (VEC.axpy c v w) H hs hc hax hm
  have hrlen : rv.e.length = rw.e.length := by rw [a3, b3, hvw]
  have hget : ∀ j, r.get j = c * rv.get j + rw.get j := by
    intro j
    rw [c4 j, a4 j, b4 j, multiply_spec_axpy c v w H hlen j]
  refine ⟨⟨rv, rw, r, a1, b1, c1, ?_, hget⟩, ?_⟩
  · refine vec_ext_get _ _ (by rw [c2]; exact a2.symm) ?_ ?_
    · rw [c3]
      simp only [VEC.axpy, List.length_zipWith, ← hrlen, min_self]
      exact a3.symm
    · intro j
      rw [hget j, axpy_get c rv rw hrlen j]
  · obtain ⟨z, z1, z2, z3, z4⟩ := multiply_run (v_get v.dim) H hs hc
      (by simp [VEC.wf, v_get]) hm
    rw [z1, vec_eq_const z v.dim 0 z2 z3 (fun i _ => by rw [z4 i, multiply_spec_zero])]
    rfl

/-- C18 at a matrix with a duplicated column, `c = 3` and two vectors of
dimension `3`. -/
theorem multiply_linear_witness :
    dup2.shaped ∧ dup2.colsBelow 3 ∧ VEC.wf ⟨3, [1 / 2, 1 / 3, 1 / 6]⟩ ∧
    VEC.wf ⟨3, [1, 0, 2]⟩ ∧ dup2.m ≤ 3 ∧
    (∃ rv rw r, multiply ⟨3, [1 / 2, 1 / 3, 1 / 6]⟩ dup2 = some rv ∧
      multiply ⟨3, [1, 0, 2]⟩ dup2 = some rw ∧
      multiply (VEC.axpy 3 ⟨3, [1 / 2, 1 / 3, 1 / 6]⟩ ⟨3, [1, 0, 2]⟩) dup2 = some r ∧
      r = VEC.axpy 3 rv rw ∧ ∀ j, r.get j = 3 * rv.get j + rw.get j) ∧
    multiply (v_get 3) dup2 = some (v_get 3) :=
  ⟨by decide, by decide, by decide, by decide, by decide,
    multiply_linear 3 ⟨3, [1 / 2, 1 / 3, 1 / 6]⟩ ⟨3, [1, 0, 2]⟩ dup2 (by decide) (by decide)
      (by decide) (by decide) (by decide) (by decide)⟩

end PageRank
